import Mathlib

/-!
Verification development for the blog friend-link network research repository.

The repository crawls personal blogs, records directed "friend link" edges
between sites in a MySQL store, stages unresolved outbound links as
external-site candidates, and computes graph metrics (shortest paths,
clustering, transitivity, assortativity, modularity) over the resulting
directed graph.

This file gives a shallow embedding of the relevant Python code:

* string and URL helpers (`normalize_url`, `extract_domain`,
  `build_site_url_map`, `get_site_by_url`, `extract_links`) from
  `crawl_friend_links.py`, modelled over `List Char` with the behaviour of
  CPython's `urllib.parse` restricted to the inputs those functions feed it;
* the friend-link batch writer (`batch_save_friend_links`) and the
  friend-page probing loop of `crawl_site_links`;
* the work-claim batch pull (`get_unprocessed_external_sites`) and the
  promotion transaction of `process_external_site` from
  `crawl_external_sites.py`, with the database table modelled as a list of
  rows and the transaction as an atomic state transformation;
* the analytics of `analyze_cluster.py` and `analyze_shortest_paths.py`
  over an edge list, with float results represented exactly in `ℚ`
  (Pearson correlations as `a·√b` pairs) and NumPy's NaN / ZeroDivisionError
  behaviour made explicit.

Theorems named `claim_C…` settle the specification claims; `…_witness`
theorems instantiate the conditional ones, `…_cex` theorems are concrete
counterexamples.
-/

namespace BlogNet

/-! ## Python string primitives over `List Char`

Python's `str.strip`, `str.rstrip('/')`, `str.lower`, `str.replace` and
`str.startswith`, modelled for the ASCII text these scripts handle. -/

/-- The whitespace characters stripped by Python's `str.strip()` (ASCII part). -/
def pySpace (c : Char) : Bool :=
  c = ' ' || c = '\t' || c = '\n' || c = '\x0d' || c = '\x0b' || c = '\x0c'

/-- Python `str.strip()`: drop whitespace from both ends. -/
def pyStrip (l : List Char) : List Char :=
  ((l.dropWhile pySpace).reverse.dropWhile pySpace).reverse

/-- Python `str.rstrip('/')`: drop every trailing slash. -/
def rstripSlashes (l : List Char) : List Char :=
  (l.reverse.dropWhile (· = '/')).reverse

/-- Python `str.lower()` on the ASCII strings these scripts handle. -/
def pyLower (l : List Char) : List Char :=
  l.map Char.toLower

/-- Split a list at the first occurrence of `c`: returns the part before it
and, when `c` occurs, the part after it. -/
def splitFirst (c : Char) : List Char → List Char × Option (List Char)
  | [] => ([], none)
  | x :: xs =>
    if x = c then ([], some xs)
    else
      let r := splitFirst c xs
      (x :: r.1, r.2)

/-- Python substring containment `pat in s` (for nonempty `pat`). -/
def containsSub (pat : List Char) (l : List Char) : Bool :=
  match l with
  | [] => pat.isPrefixOf ([] : List Char)
  | _ :: xs => pat.isPrefixOf l || containsSub pat xs

/-- Fuel-indexed worker for `removeAll`; the fuel bounds the number of
scanning steps and `removeAll` supplies enough of it. -/
def removeAllAux (pat : List Char) : Nat → List Char → List Char
  | _, [] => []
  | 0, l => l
  | fuel + 1, c :: rest =>
    if pat ≠ [] ∧ pat.isPrefixOf (c :: rest) then
      removeAllAux pat fuel ((c :: rest).drop pat.length)
    else
      c :: removeAllAux pat fuel rest

/-- Python `str.replace(pat, '')` for a nonempty pattern: remove every
non-overlapping occurrence of `pat`, scanning left to right. -/
def removeAll (pat : List Char) (l : List Char) : List Char :=
  removeAllAux pat l.length l

/-- Helper for `splitAll`: accumulates the current chunk in reverse. -/
def splitAllAux (c : Char) : List Char → List Char → List (List Char)
  | [], acc => [acc.reverse]
  | x :: xs, acc =>
    if x = c then acc.reverse :: splitAllAux c xs []
    else splitAllAux c xs (x :: acc)

/-- Split a list on every occurrence of `c` (Python `str.split(c)`). -/
def splitAll (c : Char) (l : List Char) : List (List Char) :=
  splitAllAux c l []

/-! ## CPython `urllib.parse` model

`urlparse` / `urlunparse` as used by the crawler, for `str` inputs.
Fidelity notes: leading C0-control/space characters are stripped and tab,
CR and LF characters are removed up front; the scheme is recognised only
when the text before the first `:` is a valid scheme token and is
lowercased; the network location runs from `//` to the first of `/`, `?`,
`#`; a `[` or `]` in the netloc raises `ValueError`, modelled as
`PyRes.exc` (CPython raises on mismatched brackets and, via
`_check_bracketed_host`, on every bracketed host that is not a literal IP
address; literal-IP hosts do not occur in this crawler's data and are not
modelled); `params` are split off the last path segment only for schemes
in `uses_params`.  Empty query/params/fragment strings are falsy in
Python, so they are represented by `[]` and dropped on reassembly, exactly
as `urlunparse` does.  Case mapping is modelled for ASCII. -/

/-- Result of a Python computation that may raise: either a value or an
uncaught exception. -/
inductive PyRes (α : Type) where
  | ok (val : α)
  | exc
deriving DecidableEq, Repr

/-- Characters valid inside a URL scheme token. -/
def isSchemeChar (c : Char) : Bool :=
  c.isAlpha || c.isDigit || c = '+' || c = '-' || c = '.'

/-- Components of a parsed URL, all as character lists. -/
structure UrlParts where
  scheme : List Char
  netloc : List Char
  path : List Char
  params : List Char
  query : List Char
  fragment : List Char
deriving DecidableEq, Repr

/-- Schemes for which `urlparse` separates `;params` from the path
(CPython's `uses_params`). -/
def usesParams : List (List Char) :=
  ["".data, "ftp".data, "hdl".data, "prospero".data, "http".data,
   "imap".data, "https".data, "shttp".data, "rtsp".data, "rtsps".data,
   "rtspu".data, "sip".data, "sips".data, "mms".data, "sftp".data,
   "tel".data]

/-- Schemes for which `urlunsplit` re-introduces a `//` netloc marker
(CPython's `uses_netloc`). -/
def usesNetloc : List (List Char) :=
  ["".data, "ftp".data, "http".data, "gopher".data, "nntp".data,
   "telnet".data, "imap".data, "wais".data, "file".data, "mms".data,
   "https".data, "shttp".data, "snews".data, "prospero".data, "rtsp".data,
   "rtsps".data, "rtspu".data, "rsync".data, "svn".data, "svn+ssh".data,
   "sftp".data, "nfs".data, "git".data, "git+ssh".data, "ws".data,
   "wss".data]

/-- CPython `_splitparams`: split `;params` off the last path segment. -/
def splitParams (pathRaw : List Char) : List Char × List Char :=
  if '/' ∈ pathRaw then
    let seg := (pathRaw.reverse.takeWhile (· ≠ '/')).reverse
    let pre := pathRaw.take (pathRaw.length - seg.length)
    match splitFirst ';' seg with
    | (a, some b) => (pre ++ a, b)
    | (_, none) => (pathRaw, [])
  else
    match splitFirst ';' pathRaw with
    | (a, some b) => (a, b)
    | (_, none) => (pathRaw, [])

/-- A netloc character terminates at `/`, `?` or `#`. -/
def netlocStop (c : Char) : Bool :=
  c = '/' || c = '?' || c = '#'

/-- CPython `urlparse(url)` for `str` input.  `PyRes.exc` models the
`ValueError("Invalid IPv6 URL")` raised on mismatched brackets. -/
def parseUrl (l : List Char) : PyRes UrlParts :=
  let lb := l.dropWhile (fun c => c.toNat ≤ 0x20)
  let l0 := lb.filter (fun c => !(c = '\t' || c = '\x0d' || c = '\n'))
  let sr :=
    match splitFirst ':' l0 with
    | (before, some after) =>
      if before ≠ [] ∧ (before.headD ' ').isAlpha ∧ before.all isSchemeChar then
        (pyLower before, after)
      else
        (([] : List Char), l0)
    | (_, none) => (([] : List Char), l0)
  let scheme := sr.1
  let rest := sr.2
  if ("//".data).isPrefixOf rest then
    let nl := (rest.drop 2).takeWhile (fun c => !netlocStop c)
    let rest2 := (rest.drop 2).dropWhile (fun c => !netlocStop c)
    if ('[' ∈ nl ∨ ']' ∈ nl) then
      .exc
    else
      let fr := splitFirst '#' rest2
      let qr := splitFirst '?' fr.1
      let pp :=
        if scheme ∈ usesParams ∧ ';' ∈ qr.1 then splitParams qr.1
        else (qr.1, [])
      .ok ⟨scheme, nl, pp.1, pp.2, qr.2.getD [], fr.2.getD []⟩
  else
    let fr := splitFirst '#' rest
    let qr := splitFirst '?' fr.1
    let pp :=
      if scheme ∈ usesParams ∧ ';' ∈ qr.1 then splitParams qr.1
      else (qr.1, [])
    .ok ⟨scheme, [], pp.1, pp.2, qr.2.getD [], fr.2.getD []⟩

/-- CPython `urlunparse` (via `urlunsplit`). -/
def unparseUrl (p : UrlParts) : List Char :=
  let u0 := if p.params ≠ [] then p.path ++ ';' :: p.params else p.path
  let u1 :=
    if p.netloc ≠ [] ∨
        (p.scheme ≠ [] ∧ p.scheme ∈ usesNetloc ∧ ¬ ("//".data).isPrefixOf u0) then
      '/' :: '/' :: p.netloc ++
        (if u0 ≠ [] ∧ u0.headD ' ' ≠ '/' then '/' :: u0 else u0)
    else u0
  let u2 := if p.scheme ≠ [] then p.scheme ++ ':' :: u1 else u1
  let u3 := if p.query ≠ [] then u2 ++ '?' :: p.query else u2
  if p.fragment ≠ [] then u3 ++ '#' :: p.fragment else u3

/-! ## `crawl_friend_links.py`: URL normalisation and identity resolution -/

/-- `normalize_url` (crawl_friend_links.py, lines 229-254), transliterated.
`PyRes.exc` is the uncaught `ValueError` that `urlparse` raises on a
mismatched IPv6 bracket; `.ok none` is Python `None`. -/
def normalize_url (s : String) : PyRes (Option String) :=
  if s.data = [] then .ok none
  else
    let u0 := pyStrip s.data
    if ("mailto:".data.isPrefixOf u0 || "tel:".data.isPrefixOf u0 ||
        "javascript:".data.isPrefixOf u0 || "#".data.isPrefixOf u0) then
      .ok none
    else if !("http://".data.isPrefixOf u0 || "https://".data.isPrefixOf u0) then
      .ok none
    else
      let u1 := rstripSlashes u0
      if ("://".data).isSuffixOf u1 then .ok none
      else
        match parseUrl u1 with
        | .exc => .exc
        | .ok p => .ok (some (String.mk (unparseUrl { p with fragment := [] })))

/-- `extract_domain` (crawl_friend_links.py, lines 264-274): lowercased
netloc with one leading `www.` stripped; any exception yields `None`. -/
def extract_domain (s : String) : Option String :=
  match parseUrl s.data with
  | .exc => none
  | .ok p =>
    let d := pyLower p.netloc
    some (String.mk (if ("www.".data).isPrefixOf d then d.drop 4 else d))

/-- The host key used by `build_site_url_map`, `get_site_by_url` and
`extract_links`: `netloc.lower().replace('www.', '')` — note that
`str.replace` removes every occurrence of `"www."`, not only a leading
one. -/
def replaceWwwKey (netloc : List Char) : List Char :=
  removeAll ("www.".data) (pyLower netloc)

/-- The `f"{parsed.scheme}://{netloc}"` fallback key built by
`build_site_url_map` and `get_site_by_url`. -/
def baseKeyOf (s : String) : PyRes String :=
  match parseUrl s.data with
  | .exc => .exc
  | .ok p => .ok (String.mk (p.scheme ++ "://".data ++ replaceWwwKey p.netloc))

/-- Association-list lookup, first match (Python dict `in`/`[]`). -/
def lookupBy {β : Type} (m : List (String × β)) (k : String) : Option β :=
  (m.find? (fun p => p.1 == k)).map (·.2)

/-- Python `d[k] = v`: overwrite an existing key or append. -/
def insertLastWins (m : List (String × Nat)) (k : String) (v : Nat) :
    List (String × Nat) :=
  if m.any (fun p => p.1 == k) then
    m.map (fun p => if p.1 == k then (p.1, v) else p)
  else m ++ [(k, v)]

/-- Python `if k not in d: d[k] = v`. -/
def insertIfAbsent (m : List (String × Nat)) (k : String) (v : Nat) :
    List (String × Nat) :=
  if m.any (fun p => p.1 == k) then m else m ++ [(k, v)]

/-- A row of the `sites` table. -/
structure Site where
  id : Nat
  url : String
deriving DecidableEq, Repr

/-- `build_site_url_map` (crawl_friend_links.py, lines 543-568): an exact
URL → id map and a scheme+bare-domain → id map (first site wins for the
latter; a parse error skips only the fallback entry). -/
def build_site_url_map (sites : List Site) :
    List (String × Nat) × List (String × Nat) :=
  sites.foldl
    (fun maps site =>
      let um := insertLastWins maps.1 site.url site.id
      let bm :=
        match baseKeyOf site.url with
        | .exc => maps.2
        | .ok bk => insertIfAbsent maps.2 bk site.id
      (um, bm))
    ([], [])

/-- `get_site_by_url` (crawl_friend_links.py, lines 570-590): exact match
first, then the scheme+bare-domain fallback; falsy or unparseable input
gives `None` (the `except` branch swallows the parse error). -/
def get_site_by_url (url : Option String)
    (urlMap baseMap : List (String × Nat)) : Option Nat :=
  match url with
  | none => none
  | some u =>
    if u = "" then none
    else
      match lookupBy urlMap u with
      | some sid => some sid
      | none =>
        match baseKeyOf u with
        | .exc => none
        | .ok bk => lookupBy baseMap bk

/-! ## `extract_links` (crawl_friend_links.py, lines 412-480)

The HTML parsing itself is external: the page is abstracted to the list of
`href` attribute values in document order.  `urljoin` (used only for
relative hrefs) and `unquote` (percent-decoding inside `parse_qs`) are
passed in as function parameters.  Python's `set` of links is modelled as
a duplicate-free list in first-insertion order.  An exception anywhere in
the body is caught by the function's `except` clause, which returns the
empty set. -/

/-- Python `s.replace('+', ' ')` as used by `parse_qsl`. -/
def plusToSpace (l : List Char) : List Char :=
  l.map (fun c => if c = '+' then ' ' else c)

/-- CPython `parse_qs(q)` with default arguments: split on `&`, skip empty
chunks, chunks without `=` and blank values, decode `+` and percent
escapes, and group values by name in first-encounter order. -/
def parse_qs (unquote : String → String) (q : List Char) :
    List (String × List String) :=
  (splitAll '&' q).foldl
    (fun acc chunk =>
      if chunk = [] then acc
      else
        match splitFirst '=' chunk with
        | (_, none) => acc
        | (name, some value) =>
          if value = [] then acc
          else
            let n := unquote (String.mk (plusToSpace name))
            let v := unquote (String.mk (plusToSpace value))
            if acc.any (fun p => p.1 == n) then
              acc.map (fun p => if p.1 == n then (p.1, p.2 ++ [v]) else p)
            else acc ++ [(n, [v])])
    []

/-- Python `set.add` on a duplicate-free list. -/
def setAdd (l : List String) (x : String) : List String :=
  if x ∈ l then l else l ++ [x]

/-- The query-parameter names treated as link-redirect indicators. -/
def redirectParams : List String :=
  ["url", "target", "link", "redirect", "goto", "jump", "to", "href"]

/-- Domains (and pseudo-schemes) excluded from extracted links. -/
def skipDomains : List String :=
  ["github.com", "twitter.com", "facebook.com", "linkedin.com",
   "weibo.com", "zhihu.com", "douban.com", "bilibili.com",
   "youtube.com", "instagram.com", "pinterest.com",
   "mailto:", "tel:", "javascript:", "#"]

/-- The inner `for param in redirect_params` loop of `extract_links`: try
each redirect parameter name against the parsed query, normalise its first
value when it is an absolute HTTP(S) URL, and collect it when its bare
domain differs from the page's. -/
def redirectLoop (unquote : String → String) (baseDomain : List Char)
    (params : List (String × List String)) :
    List String → List String → PyRes (List String)
  | [], links => .ok links
  | p :: rest, links =>
    match lookupBy params p with
    | none => redirectLoop unquote baseDomain params rest links
    | some vs =>
      let real := vs.headD ""
      if ("http://".data).isPrefixOf real.data ∨
          ("https://".data).isPrefixOf real.data then
        match normalize_url real with
        | .exc => .exc
        | .ok none => redirectLoop unquote baseDomain params rest links
        | .ok (some n2) =>
          match parseUrl n2.data with
          | .exc => .exc
          | .ok p2 =>
            if replaceWwwKey p2.netloc ≠ baseDomain then
              redirectLoop unquote baseDomain params rest (setAdd links n2)
            else
              redirectLoop unquote baseDomain params rest links
      else redirectLoop unquote baseDomain params rest links

/-- Body of `extract_links` for one `href`, threading the link set. -/
def processHref (joiner : String → String → String)
    (unquote : String → String) (base_url : String) (baseDomain : List Char)
    (links : List String) (href0 : String) : PyRes (List String) :=
  let href1 := pyStrip href0.data
  if href1 = [] then .ok links
  else
    let href2 :=
      if ("http://".data).isPrefixOf href1 ∨ ("https://".data).isPrefixOf href1
      then String.mk href1
      else joiner base_url (String.mk href1)
    match normalize_url href2 with
    | .exc => .exc
    | .ok none => .ok links
    | .ok (some normalized) =>
      match parseUrl normalized.data with
      | .exc => .exc
      | .ok pn =>
        let linkDomain := replaceWwwKey pn.netloc
        if linkDomain = baseDomain then
          if redirectParams.any
              (fun p => containsSub p.data (pyLower pn.query)) then
            redirectLoop unquote baseDomain (parse_qs unquote pn.query)
              redirectParams links
          else .ok links
        else if skipDomains.any
            (fun sk => containsSub sk.data (pyLower normalized.data)) then
          .ok links
        else .ok (setAdd links normalized)

/-- Worker threading `processHref` over the hrefs, short-circuiting on a
raised exception. -/
def extractLinksAux (joiner : String → String → String)
    (unquote : String → String) (base_url : String) (baseDomain : List Char)
    (links : List String) : List String → PyRes (List String)
  | [] => .ok links
  | h :: hs =>
    match processHref joiner unquote base_url baseDomain links h with
    | .exc => .exc
    | .ok links' => extractLinksAux joiner unquote base_url baseDomain links' hs

/-- `extract_links(html, base_url)` with the page abstracted to its list of
hrefs: external links, normalised, with same-domain links either skipped or
resolved through redirect query parameters.  The wrapping `try/except`
turns any exception into the empty set. -/
def extract_links (joiner : String → String → String)
    (unquote : String → String) (hrefs : List String) (base_url : String) :
    List String :=
  match parseUrl base_url.data with
  | .exc => []
  | .ok pb =>
    match extractLinksAux joiner unquote base_url (replaceWwwKey pb.netloc)
        [] hrefs with
    | .exc => []
    | .ok links => links

/-! ## The `friend_links` table and its batch writer

A row of the table created by `init_database`: the unique key
`unique_friend_link` is `(from_site_id, to_site_id, page_url(100))`, i.e.
the `page_url` participates only through its first 100 characters.
`batch_save_friend_links` inserts with `ON DUPLICATE KEY UPDATE id = id`,
so a key collision leaves the table unchanged. -/

/-- The `link_type` column. -/
inductive LinkType where
  | homepage
  | friend_page
deriving DecidableEq, Repr

/-- A committed `friend_links` row (the auto-increment id and timestamp
columns play no role in the claims and are omitted). -/
structure FLRow where
  fromSite : Nat
  toSite : Nat
  linkType : LinkType
  pageUrl : String
deriving DecidableEq, Repr

/-- The `unique_friend_link` key of a row: both site ids and the first 100
characters of the page URL. -/
def flKey (r : FLRow) : Nat × Nat × List Char :=
  (r.fromSite, r.toSite, r.pageUrl.data.take 100)

/-- One `INSERT ... ON DUPLICATE KEY UPDATE id = id`: a no-op when a row
with the same unique key exists, an append otherwise. -/
def insertIgnoreFL (t : List FLRow) (r : FLRow) : List FLRow :=
  if t.any (fun x => flKey x = flKey r) then t else t ++ [r]

/-- `batch_save_friend_links` (crawl_friend_links.py, lines 592-629):
the effect of `executemany` of the upsert-or-ignore statement on the
table. -/
def batch_save_friend_links (t : List FLRow) (batch : List FLRow) :
    List FLRow :=
  batch.foldl insertIgnoreFL t

/-! ## The friend-page probing loop of `crawl_site_links`
(crawl_friend_links.py, lines 770-806)

Fetching a page and extracting its links is abstracted into one function
`fetchEx : String → Option (String × List String)` returning the final URL
after redirects (the `final_friend_url or friend_page_url` value the code
uses as `page_url`) and the distinct outbound links produced by
`extract_links`; `none` is a failed fetch.  The URL-map snapshot is a
single immutable pair of maps: the code's mid-loop re-snapshot of a
concurrently refreshed map is not modelled. -/

/-- A staged `external_sites` insert produced while crawling. -/
structure ExtStage where
  url : String
  domain : String
  discFrom : Nat
  discPage : String
  linkType : LinkType
deriving DecidableEq, Repr

/-- Result of the friend-page probing loop: staged friend-link rows,
staged external-site rows, and the candidate URLs actually fetched. -/
structure FriendStage where
  friendRows : List FLRow
  extRows : List ExtStage
  fetched : List String
deriving DecidableEq, Repr

/-- One iteration of the `for link_url in friend_page_links` body: resolve
the link to a known site (staging a `friend_page` edge) or stage an
external-site row keyed by its domain when the domain is nonempty. -/
def stageStep (siteId : Nat) (urlMap baseMap : List (String × Nat))
    (pageUrl : String) (acc : List FLRow × List ExtStage) (l : String) :
    List FLRow × List ExtStage :=
  match get_site_by_url (some l) urlMap baseMap with
  | some tid => (acc.1 ++ [⟨siteId, tid, .friend_page, pageUrl⟩], acc.2)
  | none =>
    match extract_domain l with
    | none => acc
    | some d =>
      if d = "" then acc
      else (acc.1, acc.2 ++ [⟨l, d, siteId, pageUrl, .friend_page⟩])

/-- The `for link_url in friend_page_links` loop over a page's links. -/
def stagePageLinks (siteId : Nat) (urlMap baseMap : List (String × Nat))
    (pageUrl : String) (ls : List String) : List FLRow × List ExtStage :=
  ls.foldl (stageStep siteId urlMap baseMap pageUrl) ([], [])

/-- The loop over candidate friend-link pages: fetch each page, stage its
links, and stop as soon as one page yields more than 3 links. -/
def friendPageLoop (fetchEx : String → Option (String × List String))
    (siteId : Nat) (urlMap baseMap : List (String × Nat)) :
    List String → FriendStage
  | [] => ⟨[], [], []⟩
  | u :: rest =>
    match fetchEx u with
    | none =>
      let r := friendPageLoop fetchEx siteId urlMap baseMap rest
      ⟨r.friendRows, r.extRows, u :: r.fetched⟩
    | some (finalUrl, ls) =>
      let st := stagePageLinks siteId urlMap baseMap finalUrl ls
      if ls.length > 3 then ⟨st.1, st.2, [u]⟩
      else
        let r := friendPageLoop fetchEx siteId urlMap baseMap rest
        ⟨st.1 ++ r.friendRows, st.2 ++ r.extRows, u :: r.fetched⟩

/-- The friend-page phase of `crawl_site_links`: at most the first 5
candidate page URLs are attempted. -/
def crawl_friend_pages (fetchEx : String → Option (String × List String))
    (siteId : Nat) (urlMap baseMap : List (String × Nat))
    (friendPageUrls : List String) : FriendStage :=
  friendPageLoop fetchEx siteId urlMap baseMap (friendPageUrls.take 5)

/-! ## The work-claim queue (`crawl_external_sites.py`)

A row of `external_sites` with its `processed` claim column
(`NULL`/0 unclaimed, 1 done, 2 failed, 3 claimed).
`get_unprocessed_external_sites` runs one transaction: select up to
`limit` unclaimed ids in id order under `FOR UPDATE`, set exactly those
still-unclaimed rows to 3, and return the rows among them now marked 3.
The transaction is modelled as an atomic transformation of the table. -/

/-- An `external_sites` row.  `processed = none` models SQL `NULL`. -/
structure ExtRow where
  id : Nat
  url : String
  domain : String
  discFrom : Nat
  discPage : String
  linkType : LinkType
  processed : Option Nat
deriving DecidableEq, Repr

/-- The `processed = 0 OR processed IS NULL` filter. -/
def unclaimedRow (r : ExtRow) : Bool :=
  r.processed = none || r.processed = some 0

/-- The row as claimed by the work-claim transition: `processed` set to 3. -/
def claimRow (r : ExtRow) : ExtRow :=
  { r with processed := some 3 }

/-- Insert a row into an id-sorted list. -/
def insertById (r : ExtRow) : List ExtRow → List ExtRow
  | [] => [r]
  | x :: xs => if r.id ≤ x.id then r :: x :: xs else x :: insertById r xs

/-- `ORDER BY id`: insertion sort of the table by id. -/
def sortById (t : List ExtRow) : List ExtRow :=
  t.foldr insertById []

/-- `get_unprocessed_external_sites(limit)` as an atomic transaction:
returns the selected rows and the updated table. -/
def get_unprocessed_external_sites (t : List ExtRow) (limit : Nat) :
    List ExtRow × List ExtRow :=
  let ids := (((sortById t).filter unclaimedRow).take limit).map (·.id)
  let t' := t.map
    (fun r => if r.id ∈ ids ∧ unclaimedRow r then claimRow r else r)
  (t'.filter (fun r => r.id ∈ ids ∧ r.processed = some 3), t')

/-- `UPDATE external_sites SET processed = s WHERE id = rid`. -/
def markProcessed (t : List ExtRow) (rid status : Nat) : List ExtRow :=
  t.map (fun r => if r.id = rid then { r with processed := some status } else r)

/-- The database effect of `process_external_site`
(crawl_external_sites.py, lines 465-633): page fetching and the blog
classifier are abstracted into the parameters `fetched` (the final URL
after redirects, `none` on fetch failure) and `isBlog`.  On promotion the
site row is reused or inserted by exact URL match (auto-increment id
modelled as max+1; the display-name column is not modelled), a friend-link
row is inserted unless its exact triple or unique key already exists, and
the external row is deleted.  Returns the new `sites`, `friend_links` and
`external_sites` tables. -/
def process_external_site (sites : List Site) (flTable : List FLRow)
    (extTable : List ExtRow) (row : ExtRow) (fetched : Option String)
    (isBlog : Bool) : List Site × List FLRow × List ExtRow :=
  match fetched with
  | none => (sites, flTable, markProcessed extTable row.id 2)
  | some finalUrl =>
    if !isBlog then (sites, flTable, markProcessed extTable row.id 2)
    else
      let lookupUrl := if finalUrl = "" then row.url else finalUrl
      let found := sites.find? (fun s => s.url == lookupUrl)
      let sp : List Site × Nat :=
        match found with
        | some s => (sites, s.id)
        | none =>
          let nid := (sites.map Site.id).foldr max 0 + 1
          (sites ++ [⟨nid, lookupUrl⟩], nid)
      let exactExists := flTable.any
        (fun e => e.fromSite == row.discFrom && e.toSite == sp.2 &&
          e.pageUrl == row.discPage)
      let fl' :=
        if exactExists then flTable
        else insertIgnoreFL flTable
          ⟨row.discFrom, sp.2, row.linkType, row.discPage⟩
      (sp.1, fl', extTable.filter (fun r => r.id ≠ row.id))

/-! ## Analytics (`analyze_cluster.py`, `analyze_shortest_paths.py`)

Both analysers load `SELECT DISTINCT from_site_id, to_site_id FROM
friend_links WHERE from_site_id != to_site_id` and build adjacency lists
with `defaultdict(list)`; the edge list below is that query's result.  For
each directed edge `(a, b)` the undirected graph appends `b` to `a`'s list
and `a` to `b`'s list, so a mutual pair of directed edges produces a
doubled adjacency entry at both endpoints.  Dictionary keys appear in
first-insertion order.  Float arithmetic is modelled exactly in `ℚ`;
`np.mean([])` is NaN and `np.average` with zero weight sum raises
`ZeroDivisionError`, both made explicit in the result types. -/

/-- Append an element to a list unless already present (ordered-set add). -/
def pushNew (acc : List Nat) (x : Nat) : List Nat :=
  if x ∈ acc then acc else acc ++ [x]

/-- The keys of the `undirected_graph` dict, in first-insertion order. -/
def graphKeys (es : List (Nat × Nat)) : List Nat :=
  es.foldl (fun acc e => pushNew (pushNew acc e.1) e.2) []

/-- The undirected adjacency list of `v`: one entry per edge endpoint,
duplicates preserved (`self.undirected_graph[v]`). -/
def undirected_adj (es : List (Nat × Nat)) (v : Nat) : List Nat :=
  es.flatMap (fun e =>
    (if e.1 = v then [e.2] else []) ++ (if e.2 = v then [e.1] else []))

/-- The directed adjacency list of `v` (`self.graph[v]`). -/
def directed_adj (es : List (Nat × Nat)) (v : Nat) : List Nat :=
  es.flatMap (fun e => if e.1 = v then [e.2] else [])

/-- Distinct elements of a list in first-occurrence order (Python `set`
built from a list, up to iteration order). -/
def dedupKeepFirst (l : List Nat) : List Nat :=
  l.foldl pushNew []

/-- Count the pairs `i < j` of the list whose second member occurs in the
adjacency list of the first (`if neighbors[j] in undirected_graph[neighbors[i]]`). -/
def countAdjPairs (es : List (Nat × Nat)) : List Nat → Nat
  | [] => 0
  | x :: rest =>
    (rest.filter (fun y => y ∈ undirected_adj es x)).length + countAdjPairs es rest

/-- `calculate_local_clustering_coefficient` (analyze_cluster.py, lines
86-104): neighbours are deduplicated into a set; degree below 2 gives 0. -/
def calculate_local_clustering_coefficient (es : List (Nat × Nat)) (v : Nat) : ℚ :=
  let ns := dedupKeepFirst (undirected_adj es v)
  let k := ns.length
  if k < 2 then 0
  else
    let possible : ℚ := ((k * (k - 1) : ℕ) : ℚ) / 2
    if 0 < possible then (countAdjPairs es ns : ℚ) / possible else 0

/-- Result of `np.mean`: NaN on an empty list. -/
inductive NpMeanRes where
  | val (q : ℚ)
  | nan
deriving DecidableEq, Repr

/-- Result of `np.average(l, weights=w)`: `ZeroDivisionError` when the
weights sum to zero (which includes both lists being empty). -/
inductive NpAvgRes where
  | val (q : ℚ)
  | zeroDivErr
deriving DecidableEq, Repr

/-- `np.mean` over exact rationals. -/
def npMean (l : List ℚ) : NpMeanRes :=
  if l.isEmpty then .nan else .val (l.sum / l.length)

/-- `np.average(l, weights=w)` over exact rationals (the call sites always
pass lists of equal length). -/
def npAverage (l w : List ℚ) : NpAvgRes :=
  if w.sum = 0 then .zeroDivErr
  else .val ((List.zipWith (· * ·) l w).sum / w.sum)

/-- Result record of `calculate_global_clustering_coefficient`. -/
structure GlobalCC where
  average : NpMeanRes
  weighted : NpAvgRes
  coeffs : List ℚ
  degrees : List Nat
deriving DecidableEq, Repr

/-- `calculate_global_clustering_coefficient` (analyze_cluster.py, lines
106-127): unweighted mean of the local coefficients over all dict keys and
the mean weighted by the raw adjacency-list lengths. -/
def calculate_global_clustering_coefficient (es : List (Nat × Nat)) : GlobalCC :=
  let ks := graphKeys es
  let coeffs := ks.map (calculate_local_clustering_coefficient es)
  let degrees := ks.map (fun v => (undirected_adj es v).length)
  ⟨npMean coeffs, npAverage coeffs (degrees.map (fun d : ℕ => (d : ℚ))),
    coeffs, degrees⟩

/-- Result record of `calculate_transitivity`. -/
structure TransRes where
  transitivity : ℚ
  triangles : ℚ
  triplets : ℚ
deriving DecidableEq, Repr

/-- `calculate_transitivity` (analyze_cluster.py, lines 129-159): triplets
and triangle incidences are counted over the raw adjacency lists
(duplicates included); nodes of raw degree below 2 are skipped; the raw
triangle count is divided by 3. -/
def calculate_transitivity (es : List (Nat × Nat)) : TransRes :=
  let ks := graphKeys es
  let tp : ℚ := (ks.map (fun v =>
    let k := (undirected_adj es v).length
    if k < 2 then (0 : ℚ) else ((k * (k - 1) : ℕ) : ℚ) / 2)).sum
  let trRaw : ℚ := (ks.map (fun v =>
    let ns := undirected_adj es v
    if ns.length < 2 then (0 : ℚ) else (countAdjPairs es ns : ℚ))).sum
  let triangles := trRaw / 3
  ⟨if 0 < tp then 3 * triangles / tp else 0, triangles, tp⟩

/-- An exact representation of the float `coef · √radicand`, the shape of
a Pearson correlation `Sxy / √(Sxx·Syy)` over rational inputs (here
`coef = Sxy/(Sxx·Syy)` and `radicand = Sxx·Syy`). -/
structure SqrtRat where
  coef : ℚ
  radicand : ℚ
deriving DecidableEq, Repr

/-- A plain rational as a `SqrtRat`. -/
def SqrtRat.ofRat (q : ℚ) : SqrtRat := ⟨q, 1⟩

/-- The `source_degrees` sample list of `calculate_degree_assortativity`
(analyze_cluster.py, lines 171-179): for each adjacency entry of each
node, the node's raw adjacency-list length. -/
def source_degrees (es : List (Nat × Nat)) : List ℚ :=
  (graphKeys es).flatMap (fun v =>
    (undirected_adj es v).map (fun _ => (((undirected_adj es v).length : ℕ) : ℚ)))

/-- The `target_degrees` sample list of `calculate_degree_assortativity`:
for each adjacency entry of each node, the raw adjacency-list length of
the neighbour. -/
def target_degrees (es : List (Nat × Nat)) : List ℚ :=
  (graphKeys es).flatMap (fun v =>
    (undirected_adj es v).map (fun m => (((undirected_adj es m).length : ℕ) : ℚ)))

/-- `calculate_degree_assortativity` (analyze_cluster.py, lines 161-187):
one `(source degree, target degree)` sample per adjacency entry, degrees
being raw list lengths; an empty graph, an empty sample list, or a zero
variance (where `np.corrcoef` yields NaN) reports 0. -/
def calculate_degree_assortativity (es : List (Nat × Nat)) : SqrtRat :=
  let ks := graphKeys es
  let degrees := ks.map (fun v => (undirected_adj es v).length)
  if degrees.isEmpty then .ofRat 0
  else
    let src := source_degrees es
    let tgt := target_degrees es
    if src.isEmpty then .ofRat 0
    else
      let n : ℚ := src.length
      let mx := src.sum / n
      let my := tgt.sum / n
      let sxx := (src.map (fun a => (a - mx) ^ 2)).sum
      let syy := (tgt.map (fun a => (a - my) ^ 2)).sum
      let sxy := (List.zipWith (fun a b => (a - mx) * (b - my)) src tgt).sum
      if sxx = 0 ∨ syy = 0 then .ofRat 0
      else ⟨sxy / (sxx * syy), sxx * syy⟩

/-- Fuel-indexed BFS over the undirected adjacency collecting one
component; returns the component (insertion order) and the grown visited
set.  The callers supply fuel exceeding every possible number of queue
pops. -/
def bfsComponentAux (es : List (Nat × Nat)) :
    Nat → List Nat → List Nat → List Nat → List Nat × List Nat
  | _, [], vis, comp => (comp, vis)
  | 0, _, vis, comp => (comp, vis)
  | fuel + 1, c :: qs, vis, comp =>
    let comp' := pushNew comp c
    let st := (undirected_adj es c).foldl
      (fun (p : List Nat × List Nat) n =>
        if n ∈ p.1 then p else (p.1 ++ [n], p.2 ++ [n]))
      (vis, qs)
    bfsComponentAux es fuel st.2 st.1 comp'

/-- `bfs_component(start)` from `find_connected_components`. -/
def bfs_component (es : List (Nat × Nat)) (start : Nat) (vis : List Nat) :
    List Nat × List Nat :=
  bfsComponentAux es (2 * es.length + 2) [start] (pushNew vis start) []

/-- `find_connected_components` (analyze_cluster.py, lines 275-301):
BFS from every not-yet-visited dict key over the undirected adjacency. -/
def find_connected_components (es : List (Nat × Nat)) : List (List Nat) :=
  ((graphKeys es).foldl
    (fun (st : List Nat × List (List Nat)) node =>
      if node ∈ st.1 then st
      else
        let r := bfs_component es node st.1
        (r.2, st.2 ++ [r.1]))
    ([], [])).2

/-- Result record of `calculate_modularity`. -/
structure ModRes where
  modularity : ℚ
  community_count : Nat
deriving DecidableEq, Repr

/-- `calculate_modularity` (analyze_cluster.py, lines 243-273): connected
components as communities; at most one community or zero edges gives 0;
otherwise the usual intra-edge minus squared-degree-fraction sum, with
edge counts and degrees taken from the raw adjacency lists. -/
def calculate_modularity (es : List (Nat × Nat)) : ModRes :=
  let comms := find_connected_components es
  let cnt := comms.length
  if cnt ≤ 1 then ⟨0, cnt⟩
  else
    let total : ℚ :=
      ((((graphKeys es).map (fun v => (undirected_adj es v).length)).sum : ℕ) : ℚ) / 2
    if total = 0 then ⟨0, cnt⟩
    else
      let q := (comms.map (fun comm =>
        let intra : ℚ :=
          (((comm.map (fun v =>
            ((undirected_adj es v).filter (· ∈ comm)).length)).sum : ℕ) : ℚ) / 2
        let cdeg : ℚ :=
          (((comm.map (fun v => (undirected_adj es v).length)).sum : ℕ) : ℚ)
        intra / total - (cdeg / (2 * total)) ^ 2)).sum
      ⟨q, cnt⟩

/-- Membership test on an association list keyed by node id. -/
def keyMem (m : List (Nat × Nat)) (k : Nat) : Bool :=
  m.any (fun p => p.1 == k)

/-- Fuel-indexed BFS over the directed adjacency carrying `(node, distance)`
pairs; the distance map doubles as the visited set, as in the source. -/
def bfsDistAux (es : List (Nat × Nat)) :
    Nat → List (Nat × Nat) → List (Nat × Nat) → List (Nat × Nat)
  | _, [], dist => dist
  | 0, _, dist => dist
  | fuel + 1, (c, d) :: qs, dist =>
    let st := (directed_adj es c).foldl
      (fun (p : List (Nat × Nat) × List (Nat × Nat)) n =>
        if keyMem p.1 n then p else (p.1 ++ [(n, d + 1)], p.2 ++ [(n, d + 1)]))
      (dist, qs)
    bfsDistAux es fuel st.2 st.1

/-- `bfs_shortest_paths` (analyze_shortest_paths.py, lines 85-105): the
distance dictionary from `start`, in insertion order. -/
def bfs_shortest_paths (es : List (Nat × Nat)) (start : Nat) :
    List (Nat × Nat) :=
  bfsDistAux es (es.length + 2) [(start, 0)] [(start, 0)]

/-- `calculate_all_pairs_shortest_paths` (analyze_shortest_paths.py, lines
107-146) given the realised sample of source ids (the `np.random.choice`
draw, or all ids for a full run): the collected distances and the reported
connectivity value `reachable_pairs / (len(sampled)·(len(sampled)−1))`,
or 0 when the denominator is 0. -/
def calculate_all_pairs_shortest_paths (es : List (Nat × Nat))
    (sampledIds : List Nat) : List Nat × ℚ :=
  let dists := sampledIds.flatMap (fun s =>
    ((bfs_shortest_paths es s).filter (fun p => p.1 ≠ s)).map (·.2))
  let reachable := dists.length
  let totalPairs := sampledIds.length * (sampledIds.length - 1)
  (dists, if 0 < totalPairs then (reachable : ℚ) / (totalPairs : ℚ) else 0)

/-- Modelled from the spec: the reachable-pair ratio the specification
prescribes for a sampled run, `reachable_pairs / (sample_size ×
(total_nodes − 1))` with `total_nodes` the node count of the whole
graph. -/
def specSampledReachableFraction (reachable sampleSize totalNodes : Nat) : ℚ :=
  (reachable : ℚ) / ((sampleSize : ℚ) * ((totalNodes : ℚ) - 1))

/-! ## Auxiliary definitions for the claim statements -/

/-- Keep the first occurrence of each pair (`SELECT DISTINCT`). -/
def dedupPairs (l : List (Nat × Nat)) : List (Nat × Nat) :=
  l.foldl (fun acc x => if x ∈ acc then acc else acc ++ [x]) []

/-- The edge list both analysers load: `SELECT DISTINCT from_site_id,
to_site_id FROM friend_links WHERE from_site_id != to_site_id`. -/
def load_graph_edges (rows : List FLRow) : List (Nat × Nat) :=
  dedupPairs ((rows.filter (fun r => r.fromSite ≠ r.toSite)).map
    (fun r => (r.fromSite, r.toSite)))

/-- The elements of a list up to and including the first one satisfying
`p` (all of it when none does). -/
def takeThrough {α : Type} (p : α → Bool) : List α → List α
  | [] => []
  | x :: xs => if p x then [x] else x :: takeThrough p xs

/-- A candidate friend-link page is accepted when its fetch succeeds and
yields more than 3 distinct outbound links. -/
def acceptsPage (fetchEx : String → Option (String × List String))
    (u : String) : Bool :=
  match fetchEx u with
  | none => false
  | some (_, ls) => ls.length > 3

/-- Modelled from the spec: the `domainOf` contract lowercases the host
and strips only a leading `"www."`, so the spec's domain-fallback key for
`resolve` is `scheme://` followed by that leading-stripped host. -/
def specLeadingWwwBaseKey (s : String) : PyRes String :=
  match parseUrl s.data with
  | .exc => .exc
  | .ok p =>
    let d := pyLower p.netloc
    .ok (String.mk (p.scheme ++ "://".data ++
      (if ("www.".data).isPrefixOf d then d.drop 4 else d)))

end BlogNet

open BlogNet

/-! ## Helper lemmas for the claim theorems -/

lemma insertById_of_forall_lt {r : ExtRow} {xs : List ExtRow}
    (h : ∀ y ∈ xs, r.id < y.id) : insertById r xs = r :: xs := by
  cases xs with
  | nil => rfl
  | cons y ys =>
    have : r.id ≤ y.id := le_of_lt (h y (by simp))
    simp [insertById, this]

lemma sortById_eq_of_sorted {T : List ExtRow}
    (hs : T.Pairwise (fun a b => a.id < b.id)) : sortById T = T := by
  induction T with
  | nil => rfl
  | cons x xs ih =>
    rw [List.pairwise_cons] at hs
    simp only [sortById, List.foldr_cons]
    rw [show List.foldr insertById [] xs = sortById xs from rfl, ih hs.2]
    exact insertById_of_forall_lt hs.1

lemma id_inj_of_sorted {T : List ExtRow}
    (hs : T.Pairwise (fun a b => a.id < b.id)) :
    ∀ x ∈ T, ∀ y ∈ T, x.id = y.id → x = y := by
  induction T with
  | nil => simp
  | cons a as ih =>
    rw [List.pairwise_cons] at hs
    intro x hx y hy he
    rcases List.mem_cons.mp hx with rfl | hx' <;>
      rcases List.mem_cons.mp hy with rfl | hy'
    · rfl
    · exact absurd (he ▸ hs.1 y hy') (lt_irrefl _)
    · exact absurd (he ▸ hs.1 x hx') (by simp)
    · exact ih hs.2 x hx' y hy' he

lemma nodup_of_sorted {T : List ExtRow}
    (hs : T.Pairwise (fun a b => a.id < b.id)) : T.Nodup :=
  hs.imp (fun h => by intro he; subst he; exact lt_irrefl _ h)

lemma filter_mem_of_sublist {s l : List ExtRow} (hsub : s.Sublist l)
    (hn : l.Nodup) : l.filter (fun r => decide (r ∈ s)) = s := by
  induction hsub with
  | slnil => simp
  | @cons s' l' a hsub ih =>
    rw [List.nodup_cons] at hn
    have ha : a ∉ s' := fun h => hn.1 (hsub.subset h)
    simp only [List.filter_cons, decide_eq_true_eq]
    rw [if_neg ha]
    exact ih hn.2
  | @cons₂ s' l' a hsub ih =>
    rw [List.nodup_cons] at hn
    simp only [List.filter_cons, decide_eq_true_eq]
    rw [if_pos (by simp)]
    congr 1
    have hcg : ∀ r ∈ l', (decide (r ∈ a :: s') : Bool) = decide (r ∈ s') := by
      intro r hr
      by_cases h : r ∈ s'
      · simp [h]
      · have hra : r ≠ a := fun he => hn.1 (he ▸ hr)
        simp [h, hra]
    rw [List.filter_congr hcg]
    exact ih hn.2

lemma filter_map_comm {α : Type} (l : List α) (g : α → α) (P Q : α → Bool)
    (h : ∀ r ∈ l, P (g r) = Q r) :
    (l.map g).filter P = (l.filter Q).map g := by
  induction l with
  | nil => rfl
  | cons a as ih =>
    simp only [List.map_cons, List.filter_cons, h a (by simp)]
    by_cases hq : Q a = true
    · simp [hq, ih (fun r hr => h r (by simp [hr]))]
    · have hq' : Q a = false := eq_false_of_ne_true hq
      simp [hq', ih (fun r hr => h r (by simp [hr]))]

lemma mem_insertIgnoreFL {t : List FLRow} {r x : FLRow} (hx : x ∈ t) :
    x ∈ insertIgnoreFL t r := by
  unfold insertIgnoreFL; split <;> simp [hx]

lemma insertIgnoreFL_key_mem (t : List FLRow) (r : FLRow) :
    ∃ x ∈ insertIgnoreFL t r, flKey x = flKey r := by
  unfold insertIgnoreFL
  split
  case isTrue h =>
    rw [List.any_eq_true] at h
    obtain ⟨x, hx, he⟩ := h
    exact ⟨x, hx, by simpa using he⟩
  case isFalse h =>
    exact ⟨r, by simp, rfl⟩

lemma insertIgnoreFL_of_key_mem {t : List FLRow} {r : FLRow}
    (h : ∃ x ∈ t, flKey x = flKey r) : insertIgnoreFL t r = t := by
  unfold insertIgnoreFL
  rw [if_pos]
  rw [List.any_eq_true]
  obtain ⟨x, hx, he⟩ := h
  exact ⟨x, hx, by simpa using he⟩

lemma mem_batch_save_friend_links {b : List FLRow} :
    ∀ {t : List FLRow} {x : FLRow}, x ∈ t → x ∈ batch_save_friend_links t b := by
  induction b with
  | nil => intro t x hx; simpa [batch_save_friend_links] using hx
  | cons a bs ih =>
    intro t x hx
    simp only [batch_save_friend_links, List.foldl_cons] at *
    exact ih (mem_insertIgnoreFL hx)

lemma batch_save_key_mem {b : List FLRow} :
    ∀ {t : List FLRow} {r : FLRow}, r ∈ b →
      ∃ x ∈ batch_save_friend_links t b, flKey x = flKey r := by
  induction b with
  | nil => intro t r hr; simp at hr
  | cons a bs ih =>
    intro t r hr
    simp only [batch_save_friend_links, List.foldl_cons]
    rcases List.mem_cons.mp hr with rfl | hr'
    · obtain ⟨x, hx, he⟩ := insertIgnoreFL_key_mem t r
      exact ⟨x, mem_batch_save_friend_links hx, he⟩
    · exact ih hr'

lemma batch_save_noop {b : List FLRow} :
    ∀ {t : List FLRow}, (∀ r ∈ b, ∃ x ∈ t, flKey x = flKey r) →
      batch_save_friend_links t b = t := by
  induction b with
  | nil => intro t _; simp [batch_save_friend_links]
  | cons a bs ih =>
    intro t h
    simp only [batch_save_friend_links, List.foldl_cons]
    rw [insertIgnoreFL_of_key_mem (h a (by simp))]
    exact ih (fun r hr => h r (by simp [hr]))

lemma takeThrough_length_le {α : Type} (p : α → Bool) (l : List α) :
    (takeThrough p l).length ≤ l.length := by
  induction l with
  | nil => simp [takeThrough]
  | cons x xs ih =>
    simp only [takeThrough]
    split
    · simp
    · simpa using ih

lemma mem_stageStep_fst {siteId : Nat} {um bm : List (String × Nat)}
    {pageUrl : String} {acc : List FLRow × List ExtStage}
    {l : String} {x : FLRow} (hx : x ∈ acc.1) :
    x ∈ (stageStep siteId um bm pageUrl acc l).1 := by
  rcases hg : get_site_by_url (some l) um bm with _ | tid
  · rcases hd : extract_domain l with _ | d
    · simpa [stageStep, hg, hd] using hx
    · by_cases he : d = "" <;> simp [stageStep, hg, hd, he, hx]
  · simp [stageStep, hg, hx]

lemma mem_stageFold_fst {siteId : Nat} {um bm : List (String × Nat)}
    {pageUrl : String} {ls : List String} :
    ∀ {acc : List FLRow × List ExtStage} {x : FLRow}, x ∈ acc.1 →
      x ∈ (ls.foldl (stageStep siteId um bm pageUrl) acc).1 := by
  induction ls with
  | nil => intro acc x hx; simpa using hx
  | cons l ls ih =>
    intro acc x hx
    simp only [List.foldl_cons]
    exact ih (mem_stageStep_fst hx)

lemma stageStep_fst_spec {siteId : Nat} {um bm : List (String × Nat)}
    {pageUrl : String} {acc : List FLRow × List ExtStage}
    {l : String} {e : FLRow}
    (he : e ∈ (stageStep siteId um bm pageUrl acc l).1) :
    e ∈ acc.1 ∨ (e.linkType = LinkType.friend_page ∧ e.fromSite = siteId ∧
      e.pageUrl = pageUrl) := by
  rcases hg : get_site_by_url (some l) um bm with _ | tid
  · rcases hd : extract_domain l with _ | d
    · simp only [stageStep, hg, hd] at he
      exact Or.inl he
    · by_cases hee : d = "" <;> simp only [stageStep, hg, hd, hee] at he
      · simp only [if_true] at he
        exact Or.inl he
      · simp only [if_false] at he
        exact Or.inl he
  · simp only [stageStep, hg] at he
    rcases List.mem_append.mp he with h1 | h2
    · exact Or.inl h1
    · simp at h2
      subst h2
      exact Or.inr ⟨rfl, rfl, rfl⟩

lemma stageFold_fst_spec {siteId : Nat} {um bm : List (String × Nat)}
    {pageUrl : String} {ls : List String} :
    ∀ {acc : List FLRow × List ExtStage} {e : FLRow},
      e ∈ (ls.foldl (stageStep siteId um bm pageUrl) acc).1 →
      e ∈ acc.1 ∨ (e.linkType = LinkType.friend_page ∧ e.fromSite = siteId ∧
        e.pageUrl = pageUrl) := by
  induction ls with
  | nil => intro acc e he; exact Or.inl (by simpa using he)
  | cons l ls ih =>
    intro acc e he
    simp only [List.foldl_cons] at he
    rcases ih he with hacc | hq
    · exact stageStep_fst_spec hacc
    · exact Or.inr hq

lemma stageStep_snd_spec {siteId : Nat} {um bm : List (String × Nat)}
    {pageUrl : String} {acc : List FLRow × List ExtStage}
    {l : String} {e : ExtStage}
    (he : e ∈ (stageStep siteId um bm pageUrl acc l).2) :
    e ∈ acc.2 ∨ (e.linkType = LinkType.friend_page ∧ e.discFrom = siteId ∧
      e.discPage = pageUrl) := by
  rcases hg : get_site_by_url (some l) um bm with _ | tid
  · rcases hd : extract_domain l with _ | d
    · simp only [stageStep, hg, hd] at he
      exact Or.inl he
    · by_cases hee : d = "" <;> simp only [stageStep, hg, hd, hee] at he
      · simp only [if_true] at he
        exact Or.inl he
      · simp only [if_false] at he
        rcases List.mem_append.mp he with h1 | h2
        · exact Or.inl h1
        · simp at h2
          subst h2
          exact Or.inr ⟨rfl, rfl, rfl⟩
  · simp only [stageStep, hg] at he
    exact Or.inl he

lemma stageFold_snd_spec {siteId : Nat} {um bm : List (String × Nat)}
    {pageUrl : String} {ls : List String} :
    ∀ {acc : List FLRow × List ExtStage} {e : ExtStage},
      e ∈ (ls.foldl (stageStep siteId um bm pageUrl) acc).2 →
      e ∈ acc.2 ∨ (e.linkType = LinkType.friend_page ∧ e.discFrom = siteId ∧
        e.discPage = pageUrl) := by
  induction ls with
  | nil => intro acc e he; exact Or.inl (by simpa using he)
  | cons l ls ih =>
    intro acc e he
    simp only [List.foldl_cons] at he
    rcases ih he with hacc | hq
    · exact stageStep_snd_spec hacc
    · exact Or.inr hq

lemma stageFold_complete {siteId : Nat} {um bm : List (String × Nat)}
    {pageUrl : String} {ls : List String} :
    ∀ {acc : List FLRow × List ExtStage} {l : String} {tid : Nat}, l ∈ ls →
      get_site_by_url (some l) um bm = some tid →
      (⟨siteId, tid, LinkType.friend_page, pageUrl⟩ : FLRow) ∈
        (ls.foldl (stageStep siteId um bm pageUrl) acc).1 := by
  induction ls with
  | nil => intro acc l tid hl; simp at hl
  | cons l0 ls ih =>
    intro acc l tid hl hg
    simp only [List.foldl_cons]
    rcases List.mem_cons.mp hl with rfl | hl'
    · apply mem_stageFold_fst
      simp [stageStep, hg]
    · exact ih hl' hg

lemma friendPageLoop_fetched (fetchEx : String → Option (String × List String))
    (siteId : Nat) (um bm : List (String × Nat)) :
    ∀ us, (friendPageLoop fetchEx siteId um bm us).fetched =
      takeThrough (acceptsPage fetchEx) us := by
  intro us
  induction us with
  | nil => simp [friendPageLoop, takeThrough]
  | cons u rest ih =>
    rcases hf : fetchEx u with _ | ⟨fu, ls⟩
    · simp [friendPageLoop, hf, takeThrough, acceptsPage, ih]
    · by_cases hlen : ls.length > 3
      · simp [friendPageLoop, hf, takeThrough, acceptsPage, hlen]
      · simp [friendPageLoop, hf, takeThrough, acceptsPage, hlen, ih]

lemma friendPageLoop_friend_tags (fetchEx : String → Option (String × List String))
    (siteId : Nat) (um bm : List (String × Nat)) :
    ∀ us, ∀ e ∈ (friendPageLoop fetchEx siteId um bm us).friendRows,
      e.linkType = LinkType.friend_page ∧ e.fromSite = siteId := by
  intro us
  induction us with
  | nil => intro e he; simp [friendPageLoop] at he
  | cons u rest ih =>
    intro e he
    rcases hf : fetchEx u with _ | ⟨fu, ls⟩
    · simp only [friendPageLoop, hf] at he
      exact ih e he
    · by_cases hlen : ls.length > 3 <;>
        simp only [friendPageLoop, hf, hlen, if_true, if_false] at he
      · rcases stageFold_fst_spec (he : e ∈ _) with h0 | hq
        · simp at h0
        · exact ⟨hq.1, hq.2.1⟩
      · rcases List.mem_append.mp he with h1 | h2
        · rcases stageFold_fst_spec h1 with h0 | hq
          · simp at h0
          · exact ⟨hq.1, hq.2.1⟩
        · exact ih e h2

lemma friendPageLoop_ext_tags (fetchEx : String → Option (String × List String))
    (siteId : Nat) (um bm : List (String × Nat)) :
    ∀ us, ∀ e ∈ (friendPageLoop fetchEx siteId um bm us).extRows,
      e.linkType = LinkType.friend_page ∧ e.discFrom = siteId := by
  intro us
  induction us with
  | nil => intro e he; simp [friendPageLoop] at he
  | cons u rest ih =>
    intro e he
    rcases hf : fetchEx u with _ | ⟨fu, ls⟩
    · simp only [friendPageLoop, hf] at he
      exact ih e he
    · by_cases hlen : ls.length > 3 <;>
        simp only [friendPageLoop, hf, hlen, if_true, if_false] at he
      · rcases stageFold_snd_spec (he : e ∈ _) with h0 | hq
        · simp at h0
        · exact ⟨hq.1, hq.2.1⟩
      · rcases List.mem_append.mp he with h1 | h2
        · rcases stageFold_snd_spec h1 with h0 | hq
          · simp at h0
          · exact ⟨hq.1, hq.2.1⟩
        · exact ih e h2

lemma friendPageLoop_complete (fetchEx : String → Option (String × List String))
    (siteId : Nat) (um bm : List (String × Nat)) :
    ∀ us, ∀ u ∈ (friendPageLoop fetchEx siteId um bm us).fetched,
      ∀ fu ls, fetchEx u = some (fu, ls) →
      ∀ l ∈ ls, ∀ tid, get_site_by_url (some l) um bm = some tid →
      (⟨siteId, tid, LinkType.friend_page, fu⟩ : FLRow) ∈
        (friendPageLoop fetchEx siteId um bm us).friendRows := by
  intro us
  induction us with
  | nil => intro u hu; simp [friendPageLoop] at hu
  | cons u0 rest ih =>
    intro u hu fu ls hfl l hl tid htid
    rcases hf : fetchEx u0 with _ | ⟨fu0, ls0⟩
    · simp only [friendPageLoop, hf] at hu ⊢
      rcases List.mem_cons.mp hu with rfl | hu'
      · rw [hf] at hfl; exact absurd hfl (by simp)
      · exact ih u hu' fu ls hfl l hl tid htid
    · by_cases hlen : ls0.length > 3 <;>
        simp only [friendPageLoop, hf, hlen, if_true, if_false] at hu ⊢
      · simp at hu
        subst hu
        rw [hf] at hfl
        injection hfl with hfl2
        injection hfl2 with h1 h2
        subst h1; subst h2
        exact stageFold_complete hl htid
      · rcases List.mem_cons.mp hu with rfl | hu'
        · rw [hf] at hfl
          injection hfl with hfl2
          injection hfl2 with h1 h2
          subst h1; subst h2
          exact List.mem_append.mpr (Or.inl (stageFold_complete hl htid))
        · exact List.mem_append.mpr (Or.inr (ih u hu' fu ls hfl l hl tid htid))

lemma mem_pushNew {acc : List Nat} {x v : Nat} :
    v ∈ pushNew acc x ↔ v ∈ acc ∨ v = x := by
  unfold pushNew
  split
  · rename_i h
    constructor
    · exact Or.inl
    · rintro (hv | rfl)
      · exact hv
      · exact h
  · simp

lemma mem_graphKeys {es : List (Nat × Nat)} {v : Nat} :
    v ∈ graphKeys es ↔ ∃ e ∈ es, e.1 = v ∨ e.2 = v := by
  have main : ∀ (l : List (Nat × Nat)) (acc : List Nat),
      v ∈ l.foldl (fun acc e => pushNew (pushNew acc e.1) e.2) acc ↔
        v ∈ acc ∨ ∃ e ∈ l, e.1 = v ∨ e.2 = v := by
    intro l
    induction l with
    | nil => intro acc; simp
    | cons e l ih =>
      intro acc
      simp only [List.foldl_cons, ih, mem_pushNew]
      constructor
      · rintro (((h | h) | h) | ⟨f, hf, hor⟩)
        · exact Or.inl h
        · exact Or.inr ⟨e, by simp, Or.inl h.symm⟩
        · exact Or.inr ⟨e, by simp, Or.inr h.symm⟩
        · exact Or.inr ⟨f, by simp [hf], hor⟩
      · rintro (h | ⟨f, hf, hor⟩)
        · exact Or.inl (Or.inl (Or.inl h))
        · rcases List.mem_cons.mp hf with rfl | hf'
          · rcases hor with h1 | h2
            · exact Or.inl (Or.inl (Or.inr h1.symm))
            · exact Or.inl (Or.inr h2.symm)
          · exact Or.inr ⟨f, hf', hor⟩
  simpa using main es []

lemma adj_ne_nil_of_mem_keys {es : List (Nat × Nat)} {v : Nat}
    (h : v ∈ graphKeys es) : undirected_adj es v ≠ [] := by
  rcases mem_graphKeys.mp h with ⟨e, he, h1 | h2⟩
  · have : e.2 ∈ undirected_adj es v := by
      unfold undirected_adj
      rw [List.mem_flatMap]
      exact ⟨e, he, by simp [h1]⟩
    intro hnil
    rw [hnil] at this
    simp at this
  · have : e.1 ∈ undirected_adj es v := by
      unfold undirected_adj
      rw [List.mem_flatMap]
      refine ⟨e, he, ?_⟩
      rw [List.mem_append]
      right
      simp [h2]
    intro hnil
    rw [hnil] at this
    simp at this

lemma sum_const_rat {l : List ℚ} {c : ℚ} (h : ∀ x ∈ l, x = c) :
    l.sum = l.length * c := by
  induction l with
  | nil => simp
  | cons a as ih =>
    simp only [List.sum_cons, List.length_cons, h a (by simp)]
    rw [ih (fun x hx => h x (by simp [hx]))]
    push_cast
    ring

lemma mem_source_degrees {es : List (Nat × Nat)} {x : ℚ}
    (hx : x ∈ source_degrees es) :
    ∃ v ∈ graphKeys es, x = ((undirected_adj es v).length : ℚ) := by
  unfold source_degrees at hx
  rw [List.mem_flatMap] at hx
  obtain ⟨v, hv, hm⟩ := hx
  rw [List.mem_map] at hm
  obtain ⟨_, _, he⟩ := hm
  exact ⟨v, hv, he.symm⟩

lemma assort_zero_of_const_degree (es : List (Nat × Nat))
    (h : ∀ u ∈ graphKeys es, ∀ v ∈ graphKeys es,
      (undirected_adj es u).length = (undirected_adj es v).length) :
    calculate_degree_assortativity es = SqrtRat.ofRat 0 := by
  simp only [calculate_degree_assortativity]
  split
  · rfl
  · split
    · rfl
    · rename_i hdeg hsrc
      rw [if_pos]
      left
      -- every sample equals the common degree
      rcases hk : graphKeys es with _ | ⟨k0, ks'⟩
      · rw [hk] at hdeg
        simp at hdeg
      · have hk0 : k0 ∈ graphKeys es := by rw [hk]; simp
        set c : ℚ := ((undirected_adj es k0).length : ℚ) with hc
        have hall : ∀ x ∈ source_degrees es, x = c := by
          intro x hx
          obtain ⟨v, hv, rfl⟩ := mem_source_degrees hx
          exact_mod_cast congrArg Nat.cast (h v hv k0 hk0)
        have hne : source_degrees es ≠ [] := by
          intro hnil
          rw [hnil] at hsrc
          simp at hsrc
        have hcast : ((source_degrees es).length : ℚ) ≠ 0 := by
          exact_mod_cast fun h0 => hne (List.length_eq_zero.mp h0)
        have hmx : (source_degrees es).sum / ((source_degrees es).length : ℚ) = c := by
          rw [sum_const_rat hall, mul_comm, mul_div_assoc, div_self hcast, mul_one]
        rw [hmx]
        apply List.sum_eq_zero
        intro y hy
        rw [List.mem_map] at hy
        obtain ⟨a, ha, rfl⟩ := hy
        rw [hall a ha]
        ring

lemma sum_pos_of_ge_one : ∀ {l : List ℚ}, (∀ x ∈ l, 1 ≤ x) → l ≠ [] → 0 < l.sum := by
  intro l
  induction l with
  | nil => intro _ h; exact absurd rfl h
  | cons a as ih =>
    intro h _
    rcases as with _ | ⟨b, bs⟩
    · simpa using lt_of_lt_of_le one_pos (h a (by simp))
    · have ha : (0 : ℚ) < a := lt_of_lt_of_le one_pos (h a (by simp))
      have hrest : 0 < (b :: bs).sum :=
        ih (fun x hx => h x (by simp [List.mem_cons.mp hx])) (by simp)
      simpa [List.sum_cons] using add_pos ha hrest

lemma clustering_defined (es : List (Nat × Nat)) (h : graphKeys es ≠ []) :
    (calculate_global_clustering_coefficient es).average ≠ NpMeanRes.nan ∧
    (calculate_global_clustering_coefficient es).weighted ≠ NpAvgRes.zeroDivErr := by
  constructor
  · simp [calculate_global_clustering_coefficient, npMean, List.isEmpty_iff, h]
  · have hpos : 0 < (((graphKeys es).map (fun v => (undirected_adj es v).length)).map
        (fun d : ℕ => (d : ℚ))).sum := by
      apply sum_pos_of_ge_one
      · intro x hx
        simp only [List.mem_map] at hx
        obtain ⟨d, ⟨v, hv, rfl⟩, rfl⟩ := hx
        have h1 : undirected_adj es v ≠ [] := adj_ne_nil_of_mem_keys hv
        have h2 : 1 ≤ (undirected_adj es v).length := by
          rcases hadj : undirected_adj es v with _ | _
          · exact absurd hadj h1
          · simp
        exact_mod_cast h2
      · intro hnil
        simp only [List.map_eq_nil_iff] at hnil
        exact h hnil
    simp only [calculate_global_clustering_coefficient, npAverage]
    rw [if_neg (by exact Ne.symm (ne_of_lt hpos))]
    simp

lemma mem_dedupPairs {l : List (Nat × Nat)} {x : Nat × Nat}
    (hx : x ∈ dedupPairs l) : x ∈ l := by
  have main : ∀ (l : List (Nat × Nat)) (acc : List (Nat × Nat)),
      x ∈ l.foldl (fun acc y => if y ∈ acc then acc else acc ++ [y]) acc →
        x ∈ acc ∨ x ∈ l := by
    intro l
    induction l with
    | nil => intro acc h; exact Or.inl (by simpa using h)
    | cons a as ih =>
      intro acc h
      simp only [List.foldl_cons] at h
      rcases ih _ h with hacc | has
      · by_cases ha : a ∈ acc
        · rw [if_pos ha] at hacc
          exact Or.inl hacc
        · rw [if_neg ha] at hacc
          rcases List.mem_append.mp hacc with h1 | h2
          · exact Or.inl h1
          · simp at h2
            exact Or.inr (by simp [h2])
      · exact Or.inr (by simp [has])
  rcases main l [] hx with h | h
  · simp at h
  · exact h

lemma load_graph_edges_no_self (rows : List FLRow) :
    ∀ e ∈ load_graph_edges rows, e.1 ≠ e.2 := by
  intro e he
  have h1 : e ∈ (rows.filter (fun r => decide (r.fromSite ≠ r.toSite))).map
      (fun r => (r.fromSite, r.toSite)) := mem_dedupPairs he
  rw [List.mem_map] at h1
  obtain ⟨r, hr, rfl⟩ := h1
  have := (List.mem_filter.mp hr).2
  simpa using this

lemma mem_setAdd {ls : List String} {n x : String} (hx : x ∈ setAdd ls n) :
    x ∈ ls ∨ x = n := by
  unfold setAdd at hx
  split at hx
  · exact Or.inl hx
  · rcases List.mem_append.mp hx with h1 | h2
    · exact Or.inl h1
    · simp at h2
      exact Or.inr h2

def LinksOffDomain (baseD : List Char) (links : List String) : Prop :=
  ∀ l ∈ links, ∀ pl, parseUrl l.data = PyRes.ok pl →
    replaceWwwKey pl.netloc ≠ baseD

lemma redirectLoop_inv {unquote : String → String} {baseD : List Char}
    {params : List (String × List String)} :
    ∀ {plist : List String} {links links' : List String},
      LinksOffDomain baseD links →
      redirectLoop unquote baseD params plist links = .ok links' →
      LinksOffDomain baseD links' := by
  intro plist
  induction plist with
  | nil =>
    intro links links' hP h
    simp only [redirectLoop] at h
    injection h with h
    exact h ▸ hP
  | cons p rest ih =>
    intro links links' hP h
    simp only [redirectLoop] at h
    split at h
    · exact ih hP h
    · split at h
      · split at h
        · simp at h
        · exact ih hP h
        · rename_i n2 hnorm
          split at h
          · simp at h
          · rename_i p2 hp2
            split at h
            · rename_i hne
              refine ih ?_ h
              intro l hlm pl hpl
              rcases mem_setAdd hlm with hold | rfl
              · exact hP l hold pl hpl
              · rw [hp2] at hpl
                injection hpl with he
                exact he ▸ hne
            · exact ih hP h
      · exact ih hP h

lemma processHref_off_domain {joiner : String → String → String}
    {unquote : String → String} {base_url : String} {baseD : List Char}
    {links links' : List String} {href : String}
    (hP : LinksOffDomain baseD links)
    (h : processHref joiner unquote base_url baseD links href = .ok links') :
    LinksOffDomain baseD links' := by
  simp only [processHref] at h
  split at h
  · injection h with h
    exact h ▸ hP
  · split at h
    · simp at h
    · injection h with h
      exact h ▸ hP
    · rename_i normalized hnorm
      split at h
      · simp at h
      · rename_i pn hpn
        split at h
        · split at h
          · exact redirectLoop_inv hP h
          · injection h with h
            exact h ▸ hP
        · split at h
          · injection h with h
            exact h ▸ hP
          · rename_i hdom _
            injection h with h
            subst h
            intro l hlm pl hpl
            rcases mem_setAdd hlm with hold | rfl
            · exact hP l hold pl hpl
            · rw [hpn] at hpl
              injection hpl with he
              exact he ▸ hdom

lemma extractLinksAux_off_domain {joiner : String → String → String}
    {unquote : String → String} {base_url : String} {baseD : List Char} :
    ∀ {hrefs : List String} {links links' : List String},
      LinksOffDomain baseD links →
      extractLinksAux joiner unquote base_url baseD links hrefs = .ok links' →
      LinksOffDomain baseD links' := by
  intro hrefs
  induction hrefs with
  | nil =>
    intro links links' hP h
    simp only [extractLinksAux] at h
    injection h with h
    exact h ▸ hP
  | cons href hs ih =>
    intro links links' hP h
    simp only [extractLinksAux] at h
    split at h
    · simp at h
    · rename_i mid hmid
      exact ih (processHref_off_domain hP hmid) h

lemma splitFirst_not_mem {c : Char} : ∀ {l : List Char}, c ∉ l →
    splitFirst c l = (l, none) := by
  intro l
  induction l with
  | nil => intro _; rfl
  | cons x xs ih =>
    intro h
    have hx : x ≠ c := fun he => h (by simp [he])
    have hxs : c ∉ xs := fun hm => h (by simp [hm])
    simp [splitFirst, hx, ih hxs]

lemma splitFirst_fst_not_mem (c : Char) : ∀ (l : List Char),
    c ∉ (splitFirst c l).1 := by
  intro l
  induction l with
  | nil => simp [splitFirst]
  | cons x xs ih =>
    by_cases hx : x = c
    · simp [splitFirst, hx]
    · simp only [splitFirst, if_neg hx]
      intro hm
      rcases List.mem_cons.mp hm with he | hm'
      · exact hx he.symm
      · exact ih hm'

lemma splitFirst_decomp {c : Char} : ∀ {l b : List Char},
    (splitFirst c l).2 = some b → l = (splitFirst c l).1 ++ c :: b := by
  intro l
  induction l with
  | nil => intro b h; simp [splitFirst] at h
  | cons x xs ih =>
    intro b h
    by_cases hx : x = c
    · simp only [splitFirst, if_pos hx] at h ⊢
      injection h with h
      simp [hx, h]
    · simp only [splitFirst, if_neg hx] at h ⊢
      rw [List.cons_append, ← ih h]

lemma splitFirst_fst_sub {c x : Char} : ∀ {l : List Char},
    x ∈ (splitFirst c l).1 → x ∈ l := by
  intro l
  induction l with
  | nil => simp [splitFirst]
  | cons y ys ih =>
    intro h
    by_cases hy : y = c
    · simp [splitFirst, hy] at h
    · simp only [splitFirst, if_neg hy] at h
      rcases List.mem_cons.mp h with he | hm
      · simp [he]
      · simp [ih hm]

lemma splitFirst_snd_sub {c x : Char} : ∀ {l b : List Char},
    (splitFirst c l).2 = some b → x ∈ b → x ∈ l := by
  intro l b h hx
  rw [splitFirst_decomp h]
  simp [hx]

lemma splitFirst_append_notmem {c : Char} : ∀ {p rest : List Char}, c ∉ p →
    splitFirst c (p ++ c :: rest) = (p, some rest) := by
  intro p
  induction p with
  | nil => intro rest _; simp [splitFirst]
  | cons x xs ih =>
    intro rest h
    have hx : x ≠ c := fun he => h (by simp [he])
    have hxs : c ∉ xs := fun hm => h (by simp [hm])
    simp [splitFirst, hx, ih hxs]

lemma rstrip_decomp (l : List Char) :
    ∃ ss, l = rstripSlashes l ++ ss ∧ ∀ x ∈ ss, x = '/' := by
  refine ⟨(l.reverse.takeWhile (fun c => decide (c = '/'))).reverse, ?_, ?_⟩
  · unfold rstripSlashes
    rw [← List.reverse_append, List.takeWhile_append_dropWhile, List.reverse_reverse]
  · intro x hx
    rw [List.mem_reverse] at hx
    have := List.mem_takeWhile_imp hx
    simpa using this

lemma head?_dropWhile_false {p : Char → Bool} : ∀ {m : List Char} {a : Char},
    (m.dropWhile p).head? = some a → p a = false := by
  intro m
  induction m with
  | nil => intro a h; simp [List.dropWhile] at h
  | cons x xs ih =>
    intro a h
    by_cases hx : p x = true
    · rw [List.dropWhile_cons_of_pos hx] at h
      exact ih h
    · rw [List.dropWhile_cons_of_neg hx] at h
      injection h with h
      rw [← h]
      exact eq_false_of_ne_true hx

lemma rstrip_getLast (l : List Char) :
    (rstripSlashes l).getLast? ≠ some '/' := by
  unfold rstripSlashes
  rw [List.getLast?_reverse]
  intro h
  have := head?_dropWhile_false h
  simp at this

lemma mem_rstrip_sub {l : List Char} {x : Char} (h : x ∈ rstripSlashes l) :
    x ∈ l := by
  unfold rstripSlashes at h
  rw [List.mem_reverse] at h
  have := (List.dropWhile_sublist _).subset h
  simpa using this

lemma normalize_setup {s : String} {r : String}
    (h : normalize_url s = .ok (some r)) :
    ∃ p, parseUrl (rstripSlashes (pyStrip s.data)) = .ok p ∧
      r.data = unparseUrl { p with fragment := [] } ∧
      (("http://".data).isPrefixOf (pyStrip s.data) ∨
        ("https://".data).isPrefixOf (pyStrip s.data)) := by
  simp only [normalize_url] at h
  split at h
  · simp at h
  · split at h
    · simp at h
    · split at h
      · simp at h
      · rename_i hnp
        split at h
        · simp at h
        · split at h
          · simp at h
          · rename_i p hp
            refine ⟨p, hp, ?_, ?_⟩
            · injection h with h
              injection h with h
              rw [← h]
            · by_cases hA : "http://".data.isPrefixOf (pyStrip s.data) = true
              · exact Or.inl hA
              · by_cases hB : "https://".data.isPrefixOf (pyStrip s.data) = true
                · exact Or.inr hB
                · exact absurd (by
                    simp [eq_false_of_ne_true hA, eq_false_of_ne_true hB]) hnp

lemma char_toNat_ofNat {n : Nat} (h : n.isValidChar) :
    (Char.ofNat n).toNat = n := by
  unfold Char.ofNat Char.toNat
  rw [dif_pos h]
  simp [Char.ofNatAux, UInt32.toNat, UInt32.ofNat', BitVec.toNat_ofNatLt]

lemma toLower_eq_hash {c : Char} (h : c.toLower = '#') : c = '#' := by
  unfold Char.toLower at h
  dsimp only at h
  split at h
  · rename_i hc
    have h2 := congrArg Char.toNat h
    have h3 : (Char.ofNat (c.toNat + 32)).toNat = c.toNat + 32 :=
      char_toNat_ofNat (Or.inl (by omega))
    rw [h3] at h2
    have h4 : ('#').toNat = 35 := rfl
    rw [h4] at h2
    omega
  · exact h

lemma mem_pyLower_hash {l : List Char} (h : '#' ∈ pyLower l) : '#' ∈ l := by
  unfold pyLower at h
  obtain ⟨y, hy, he⟩ := List.mem_map.mp h
  rw [toLower_eq_hash he] at hy
  exact hy

lemma mem_seg_sub {l : List Char} {x : Char}
    (h : x ∈ ((l.reverse.takeWhile (fun c => decide (c ≠ '/'))).reverse)) :
    x ∈ l := by
  rw [List.mem_reverse] at h
  have := (List.takeWhile_sublist _).subset h
  simpa using this

lemma splitParams_fst_sub {l : List Char} {x : Char}
    (h : x ∈ (splitParams l).1) : x ∈ l := by
  simp only [splitParams] at h
  split at h
  · split at h
    · rename_i a b hab
      dsimp only at h
      rcases List.mem_append.mp h with h1 | h1
      · exact (List.take_sublist _ _).subset h1
      · refine mem_seg_sub (x := x) ?_
        have hs := splitFirst_fst_sub (c := ';') (x := x)
          (l := (List.takeWhile (fun c => decide (c ≠ '/')) l.reverse).reverse)
        rw [hab] at hs
        exact hs h1
    · dsimp only at h
      exact h
  · split at h
    · rename_i a b hab
      dsimp only at h
      have hs := splitFirst_fst_sub (c := ';') (x := x) (l := l)
      rw [hab] at hs
      exact hs h
    · dsimp only at h
      exact h

lemma splitParams_snd_sub {l : List Char} {x : Char}
    (h : x ∈ (splitParams l).2) : x ∈ l := by
  simp only [splitParams] at h
  split at h
  · split at h
    · rename_i a b hab
      dsimp only at h
      refine mem_seg_sub (x := x) ?_
      have hd := splitFirst_snd_sub (c := ';') (x := x)
        (l := (List.takeWhile (fun c => decide (c ≠ '/')) l.reverse).reverse) (b := b)
      rw [hab] at hd
      exact hd rfl h
    · dsimp only at h
      simp at h
  · split at h
    · rename_i a b hab
      dsimp only at h
      have hd := splitFirst_snd_sub (c := ';') (x := x) (l := l) (b := b)
      rw [hab] at hd
      exact hd rfl h
    · dsimp only at h
      simp at h

lemma suffix_colon_slash {l : List Char}
    (h : ("://".data).isSuffixOf l = true) : l.getLast? = some '/' := by
  obtain ⟨t, ht⟩ := List.isSuffixOf_iff_suffix.mp h
  rw [← ht, List.getLast?_append]
  rfl

lemma rstrip_ne_nil {l : List Char} {x : Char} (hx : x ∈ l) (hs : x ≠ '/') :
    rstripSlashes l ≠ [] := by
  intro he
  obtain ⟨ss, hdec, hss⟩ := rstrip_decomp l
  rw [he, List.nil_append] at hdec
  rw [hdec] at hx
  exact hs (hss x hx)

lemma rstrip_append {a b : List Char} (h : rstripSlashes b ≠ []) :
    rstripSlashes (a ++ b) = a ++ rstripSlashes b := by
  unfold rstripSlashes at h ⊢
  rw [List.reverse_append, List.dropWhile_append]
  have hne : (List.dropWhile (fun x => decide (x = '/')) b.reverse).isEmpty = false := by
    cases hl : List.dropWhile (fun x => decide (x = '/')) b.reverse with
    | nil => exact absurd (by rw [hl]; rfl) h
    | cons y ys => rfl
  rw [hne]
  simp

lemma headD_append_left {a b : List Char} {d : Char} (h : a ≠ []) :
    (a ++ b).headD d = a.headD d := by
  cases a with
  | nil => exact absurd rfl h
  | cons x xs => rfl

lemma tail_no_hash (scheme rest : List Char) :
    '#' ∉ (if scheme ∈ usesParams ∧ ';' ∈ (splitFirst '?' (splitFirst '#' rest).1).1
      then splitParams (splitFirst '?' (splitFirst '#' rest).1).1
      else ((splitFirst '?' (splitFirst '#' rest).1).1, [])).1 ∧
    '#' ∉ (if scheme ∈ usesParams ∧ ';' ∈ (splitFirst '?' (splitFirst '#' rest).1).1
      then splitParams (splitFirst '?' (splitFirst '#' rest).1).1
      else ((splitFirst '?' (splitFirst '#' rest).1).1, [])).2 ∧
    '#' ∉ (splitFirst '?' (splitFirst '#' rest).1).2.getD [] := by
  have hfr : '#' ∉ (splitFirst '#' rest).1 := splitFirst_fst_not_mem '#' rest
  have hq1 : '#' ∉ (splitFirst '?' (splitFirst '#' rest).1).1 :=
    fun hm => hfr (splitFirst_fst_sub hm)
  have hq2 : '#' ∉ (splitFirst '?' (splitFirst '#' rest).1).2.getD [] := by
    cases hq : (splitFirst '?' (splitFirst '#' rest).1).2 with
    | none => simp
    | some t =>
      intro hm
      exact hfr (splitFirst_snd_sub hq (by simpa using hm))
  refine ⟨?_, ?_, hq2⟩
  · split
    · exact fun hm => hq1 (splitParams_fst_sub hm)
    · exact hq1
  · split
    · exact fun hm => hq1 (splitParams_snd_sub hm)
    · simp

lemma netloc_no_hash (m : List Char) :
    '#' ∉ m.takeWhile (fun c => !netlocStop c) := by
  intro hm
  have := List.mem_takeWhile_imp hm
  simp [netlocStop] at this

lemma parseUrl_no_hash {l : List Char} {p : UrlParts}
    (hp : parseUrl l = .ok p) :
    '#' ∉ p.scheme ∧ '#' ∉ p.netloc ∧ '#' ∉ p.path ∧ '#' ∉ p.params ∧
      '#' ∉ p.query := by
  simp only [parseUrl] at hp
  split at hp
  · split at hp
    · exact absurd hp (by simp)
    · split at hp
      · rename_i before after heq
        split at hp
        · rename_i hvalid
          injection hp with h
          subst h
          dsimp only
          refine ⟨?_, netloc_no_hash _, (tail_no_hash (pyLower before) _).1,
            (tail_no_hash (pyLower before) _).2.1, (tail_no_hash (pyLower before) _).2.2⟩
          intro hm
          have hb := mem_pyLower_hash hm
          have := List.all_eq_true.mp hvalid.2.2 '#' hb
          simp [isSchemeChar] at this
        · injection hp with h
          subst h
          dsimp only
          exact ⟨by simp, netloc_no_hash _, (tail_no_hash [] _).1,
            (tail_no_hash [] _).2.1, (tail_no_hash [] _).2.2⟩
      · injection hp with h
        subst h
        dsimp only
        exact ⟨by simp, netloc_no_hash _, (tail_no_hash [] _).1,
          (tail_no_hash [] _).2.1, (tail_no_hash [] _).2.2⟩
  · split at hp
    · rename_i before after heq
      split at hp
      · rename_i hvalid
        injection hp with h
        subst h
        dsimp only
        refine ⟨?_, by simp, (tail_no_hash (pyLower before) _).1,
          (tail_no_hash (pyLower before) _).2.1, (tail_no_hash (pyLower before) _).2.2⟩
        intro hm
        have hb := mem_pyLower_hash hm
        have := List.all_eq_true.mp hvalid.2.2 '#' hb
        simp [isSchemeChar] at this
      · injection hp with h
        subst h
        dsimp only
        exact ⟨by simp, by simp, (tail_no_hash [] _).1,
          (tail_no_hash [] _).2.1, (tail_no_hash [] _).2.2⟩
    · injection hp with h
      subst h
      dsimp only
      exact ⟨by simp, by simp, (tail_no_hash [] _).1,
        (tail_no_hash [] _).2.1, (tail_no_hash [] _).2.2⟩

lemma unparse_no_hash {p : UrlParts}
    (h1 : '#' ∉ p.scheme) (h2 : '#' ∉ p.netloc) (h3 : '#' ∉ p.path)
    (h4 : '#' ∉ p.params) (h5 : '#' ∉ p.query) (h6 : p.fragment = []) :
    '#' ∉ unparseUrl p := by
  intro hm
  simp only [unparseUrl, h6, ne_eq, eq_self_iff_true, not_true, if_false] at hm
  split_ifs at hm <;>
    simp [List.mem_append, List.mem_cons, h1, h2, h3, h4, h5] at hm

lemma parseUrl_clean_eval {sch v : List Char}
    (h0 : sch ≠ []) (h1 : (sch.headD ' ').isAlpha = true)
    (h2 : sch.all isSchemeChar = true) (h3 : ':' ∉ sch)
    (h4 : pyLower sch = sch)
    (h5 : List.dropWhile (fun c => decide (c.toNat ≤ 0x20))
      (sch ++ ':' :: '/' :: '/' :: v) = sch ++ ':' :: '/' :: '/' :: v)
    (h6 : List.filter (fun c => !(c = '\t' || c = '\x0d' || c = '\n')) sch = sch)
    (hv : ∀ c ∈ v, ¬(c = '\t' ∨ c = '\x0d' ∨ c = '\n' ∨ c = '[' ∨ c = ']' ∨
      c = '#' ∨ c = '?' ∨ c = ';')) :
    parseUrl (sch ++ ':' :: '/' :: '/' :: v) =
      .ok ⟨sch, v.takeWhile (fun c => !netlocStop c),
        v.dropWhile (fun c => !netlocStop c), [], [], []⟩ := by
  have hvf : List.filter (fun c => !(c = '\t' || c = '\x0d' || c = '\n')) v = v := by
    rw [List.filter_eq_self]
    intro a ha
    have := hv a ha
    simp only [Bool.not_eq_true', Bool.or_eq_false_iff, decide_eq_false_iff_not]
    exact ⟨⟨fun e => this (Or.inl e), fun e => this (Or.inr (Or.inl e))⟩,
      fun e => this (Or.inr (Or.inr (Or.inl e)))⟩
  have hfil : List.filter (fun c => !(c = '\t' || c = '\x0d' || c = '\n'))
      (sch ++ ':' :: '/' :: '/' :: v) = sch ++ ':' :: '/' :: '/' :: v := by
    rw [List.filter_append, h6]
    simp only [List.filter]
    rw [hvf]
    rfl
  have hrest2 : '#' ∉ List.dropWhile (fun c => !netlocStop c) v ∧
      '?' ∉ List.dropWhile (fun c => !netlocStop c) v ∧
      ';' ∉ List.dropWhile (fun c => !netlocStop c) v := by
    refine ⟨fun hm => ?_, fun hm => ?_, fun hm => ?_⟩ <;>
      [have := hv '#' ((List.dropWhile_sublist _).subset hm);
       have := hv '?' ((List.dropWhile_sublist _).subset hm);
       have := hv ';' ((List.dropWhile_sublist _).subset hm)] <;> simp at this
  simp only [parseUrl]
  rw [h5, hfil, splitFirst_append_notmem h3]
  dsimp only
  have hc : sch ≠ [] ∧ (sch.headD ' ').isAlpha = true ∧ sch.all isSchemeChar = true :=
    ⟨h0, h1, h2⟩
  rw [if_pos hc]
  dsimp only
  rw [h4]
  have hpre : ("//".data).isPrefixOf ('/' :: '/' :: v) = true := by
    simp [List.isPrefixOf]
  rw [if_pos hpre]
  have hdrop2 : List.drop 2 ('/' :: '/' :: v) = v := rfl
  rw [hdrop2]
  have hbr : ¬('[' ∈ List.takeWhile (fun c => !netlocStop c) v ∨
      ']' ∈ List.takeWhile (fun c => !netlocStop c) v) := by
    rintro (hm | hm) <;>
      [have := hv '[' ((List.takeWhile_sublist _).subset hm);
       have := hv ']' ((List.takeWhile_sublist _).subset hm)] <;> simp at this
  rw [if_neg hbr]
  rw [splitFirst_not_mem hrest2.1]
  dsimp only
  rw [splitFirst_not_mem hrest2.2.1]
  dsimp only
  have hnp : ¬(sch ∈ usesParams ∧ ';' ∈ List.dropWhile (fun c => !netlocStop c) v) :=
    fun hh => hrest2.2.2 hh.2
  rw [if_neg hnp]
  rfl

lemma unparse_clean_eval {sch nl rest2 : List Char}
    (hs : sch ≠ []) (hn : nl ≠ [])
    (hr : rest2 = [] ∨ rest2.headD ' ' = '/') :
    unparseUrl ⟨sch, nl, rest2, [], [], []⟩ =
      sch ++ ':' :: '/' :: '/' :: (nl ++ rest2) := by
  simp only [unparseUrl, ne_eq, eq_self_iff_true, not_true, if_false]
  have hn' : ¬nl = [] := hn
  rw [if_pos (Or.inl hn')]
  have hinner : ¬(¬rest2 = [] ∧ ¬rest2.headD ' ' = '/') := by
    rcases hr with hr | hr
    · exact fun hh => hh.1 hr
    · exact fun hh => hh.2 hr
  rw [if_neg hinner]
  have hs' : ¬sch = [] := hs
  rw [if_pos hs']
  simp

set_option maxHeartbeats 1000000 in
lemma normalize_clean {s : String} {sch v0 : List Char}
    (hsch : sch = "http".data ∨ sch = "https".data)
    (hu0 : pyStrip s.data = sch ++ ':' :: '/' :: '/' :: v0)
    (hv0 : v0 ≠ []) (hh : v0.headD ' ' ≠ '/')
    (hclean : ∀ c ∈ v0, ¬(c = '\t' ∨ c = '\x0d' ∨ c = '\n' ∨ c = '[' ∨ c = ']' ∨
      c = '#' ∨ c = '?' ∨ c = ';')) :
    normalize_url s = .ok (some ⟨rstripSlashes (pyStrip s.data)⟩) := by
  have hxv0 : ∃ x ∈ v0, x ≠ '/' := by
    cases v0 with
    | nil => exact absurd rfl hv0
    | cons c t => exact ⟨c, List.mem_cons_self c t, hh⟩
  obtain ⟨x0, hx0, hx0s⟩ := hxv0
  have hvne : rstripSlashes v0 ≠ [] := rstrip_ne_nil hx0 hx0s
  obtain ⟨ss, hdec, hss⟩ := rstrip_decomp v0
  have hhead : (rstripSlashes v0).headD ' ' = v0.headD ' ' := by
    conv_rhs => rw [hdec]
    exact (headD_append_left hvne).symm
  have hvsub : ∀ c ∈ rstripSlashes v0, c ∈ v0 := fun c hc => mem_rstrip_sub hc
  have hvu : rstripSlashes (pyStrip s.data) =
      sch ++ ':' :: '/' :: '/' :: rstripSlashes v0 := by
    rw [hu0]
    have ha : sch ++ ':' :: '/' :: '/' :: v0 = (sch ++ [':', '/', '/']) ++ v0 := by
      simp
    rw [ha, rstrip_append hvne]
    simp
  have hfacts : sch ≠ [] ∧ (sch.headD ' ').isAlpha = true ∧
      sch.all isSchemeChar = true ∧ ':' ∉ sch ∧ pyLower sch = sch ∧
      List.filter (fun c => !(c = '\t' || c = '\x0d' || c = '\n')) sch = sch := by
    rcases hsch with rfl | rfl <;>
      exact ⟨by decide, by decide, by decide, by decide, by decide, by decide⟩
  have hne : ¬(s.data = []) := by
    intro he
    rw [he] at hu0
    have : ([] : List Char) = sch ++ ':' :: '/' :: '/' :: v0 := hu0
    rcases hsch with rfl | rfl <;> simp at this
  have hg1 : ("mailto:".data.isPrefixOf (pyStrip s.data) ||
      "tel:".data.isPrefixOf (pyStrip s.data) ||
      "javascript:".data.isPrefixOf (pyStrip s.data) ||
      "#".data.isPrefixOf (pyStrip s.data)) = false := by
    rw [hu0]
    rcases hsch with rfl | rfl <;> simp [List.isPrefixOf]
  have hg2 : (!("http://".data.isPrefixOf (pyStrip s.data) ||
      "https://".data.isPrefixOf (pyStrip s.data))) = false := by
    rw [hu0]
    rcases hsch with rfl | rfl <;> simp [List.isPrefixOf]
  have hsuf : ¬(("://".data.isSuffixOf (rstripSlashes (pyStrip s.data))) = true) :=
    fun h => rstrip_getLast _ (suffix_colon_slash h)
  have hdropC0 : List.dropWhile (fun c => decide (c.toNat ≤ 0x20))
      (sch ++ ':' :: '/' :: '/' :: rstripSlashes v0) =
      sch ++ ':' :: '/' :: '/' :: rstripSlashes v0 := by
    rcases hsch with rfl | rfl <;> simp [List.dropWhile]
  have hvclean : ∀ c ∈ rstripSlashes v0, ¬(c = '\t' ∨ c = '\x0d' ∨ c = '\n' ∨
      c = '[' ∨ c = ']' ∨ c = '#' ∨ c = '?' ∨ c = ';') :=
    fun c hc => hclean c (hvsub c hc)
  have hpeval := parseUrl_clean_eval hfacts.1 hfacts.2.1 hfacts.2.2.1 hfacts.2.2.2.1
    hfacts.2.2.2.2.1 hdropC0 hfacts.2.2.2.2.2 hvclean
  have hnl : List.takeWhile (fun c => !netlocStop c) (rstripSlashes v0) ≠ [] := by
    cases hV : rstripSlashes v0 with
    | nil => exact absurd hV hvne
    | cons c t =>
      have hcv : c ∈ v0 := hvsub c (by rw [hV]; exact List.mem_cons_self c t)
      have hcb := hclean c hcv
      have hcs : c ≠ '/' := by
        intro he
        apply hh
        rw [← hhead, hV, he]
        rfl
      have hns : netlocStop c = false := by
        simp only [netlocStop, Bool.or_eq_false_iff, decide_eq_false_iff_not]
        exact ⟨⟨hcs, fun he => hcb (by simp [he])⟩, fun he => hcb (by simp [he])⟩
      rw [List.takeWhile_cons_of_pos (by simp [hns])]
      exact List.cons_ne_nil _ _
  have hr2 : List.dropWhile (fun c => !netlocStop c) (rstripSlashes v0) = [] ∨
      (List.dropWhile (fun c => !netlocStop c) (rstripSlashes v0)).headD ' ' = '/' := by
    cases hD : List.dropWhile (fun c => !netlocStop c) (rstripSlashes v0) with
    | nil => exact Or.inl rfl
    | cons c t =>
      right
      have hcd : (List.dropWhile (fun c => !netlocStop c) (rstripSlashes v0)).head? =
          some c := by rw [hD]; rfl
      have hpc := head?_dropWhile_false hcd
      have hcv : c ∈ v0 := by
        refine hvsub c ?_
        have := (List.dropWhile_sublist
          (fun c => !netlocStop c) (l := rstripSlashes v0)).subset
        rw [hD] at this
        exact this (List.mem_cons_self c t)
      have hcb := hclean c hcv
      have hstop : netlocStop c = true := by
        cases hb : netlocStop c
        · rw [hb] at hpc
          simp at hpc
        · rfl
      simp only [netlocStop, Bool.or_eq_true, decide_eq_true_eq] at hstop
      rcases hstop with (he | he) | he
      · rw [he]
        rfl
      · exact absurd he (fun he => hcb (by simp [he]))
      · exact absurd he (fun he => hcb (by simp [he]))
  have hueval := unparse_clean_eval hfacts.1 hnl hr2
  simp only [normalize_url]
  rw [if_neg hne]
  have hng1 : ¬(("mailto:".data.isPrefixOf (pyStrip s.data) ||
      "tel:".data.isPrefixOf (pyStrip s.data) ||
      "javascript:".data.isPrefixOf (pyStrip s.data) ||
      "#".data.isPrefixOf (pyStrip s.data)) = true) := by
    rw [hg1]; simp
  rw [if_neg hng1]
  have hng2 : ¬((!("http://".data.isPrefixOf (pyStrip s.data) ||
      "https://".data.isPrefixOf (pyStrip s.data))) = true) := by
    rw [hg2]; simp
  rw [if_neg hng2]
  rw [if_neg hsuf]
  rw [hvu, hpeval]
  dsimp only
  rw [hueval]
  rw [List.takeWhile_append_dropWhile]

lemma normalize_null {s : String}
    (h : ¬("http://".data.isPrefixOf (pyStrip s.data) = true ∨
      "https://".data.isPrefixOf (pyStrip s.data) = true)) :
    normalize_url s = .ok none := by
  have hA : "http://".data.isPrefixOf (pyStrip s.data) = false := by
    cases hb : "http://".data.isPrefixOf (pyStrip s.data)
    · rfl
    · exact absurd (Or.inl hb) h
  have hB : "https://".data.isPrefixOf (pyStrip s.data) = false := by
    cases hb : "https://".data.isPrefixOf (pyStrip s.data)
    · rfl
    · exact absurd (Or.inr hb) h
  simp only [normalize_url]
  split
  · rfl
  · split
    · rfl
    · rw [if_pos (by rw [hA, hB]; rfl)]

lemma normalize_no_hash {s r : String}
    (h : normalize_url s = .ok (some r)) : '#' ∉ r.data := by
  obtain ⟨p, hp, hr, _⟩ := normalize_setup h
  obtain ⟨h1, h2, h3, h4, h5⟩ := parseUrl_no_hash hp
  rw [hr]
  exact unparse_no_hash (p := { p with fragment := [] }) h1 h2 h3 h4 h5 rfl

/-! ## The claim theorems -/

/-- C1: the work-claim batch pull returns exactly the rows its own atomic
transaction transitioned from unclaimed (`processed = 0` or `NULL`) to
claimed (`processed = 3`): the first `limit` unclaimed rows in id order,
at most `limit` of them, every returned row claimed, and the new table
equal to the old one with exactly those rows claimed. -/
theorem claim_C1 (T : List ExtRow) (limit : Nat)
    (hs : T.Pairwise (fun a b => a.id < b.id)) :
    (get_unprocessed_external_sites T limit).1 =
      ((T.filter unclaimedRow).take limit).map claimRow
    ∧ (get_unprocessed_external_sites T limit).1.length ≤ limit
    ∧ (∀ r ∈ (get_unprocessed_external_sites T limit).1, r.processed = some 3)
    ∧ (get_unprocessed_external_sites T limit).2 =
      T.map (fun r =>
        if r ∈ (T.filter unclaimedRow).take limit then claimRow r else r) := by
  classical
  set S := (T.filter unclaimedRow).take limit with hS
  have hSsub : S.Sublist T := (List.take_sublist _ _).trans (List.filter_sublist _)
  have hSmem : ∀ r ∈ S, r ∈ T := fun r hr => hSsub.subset hr
  have hSun : ∀ r ∈ S, unclaimedRow r = true := by
    intro r hr
    have : r ∈ T.filter unclaimedRow := (List.take_sublist _ _).subset hr
    exact (List.mem_filter.mp this).2
  have hsort : sortById T = T := sortById_eq_of_sorted hs
  have hIds : ∀ r ∈ T, (r.id ∈ S.map (·.id) ↔ r ∈ S) := by
    intro r hr
    constructor
    · intro h
      rcases List.mem_map.mp h with ⟨s, hsm, hse⟩
      exact (id_inj_of_sorted hs s (hSmem s hsm) r hr hse) ▸ hsm
    · intro h
      exact List.mem_map.mpr ⟨r, h, rfl⟩
  have htab : T.map (fun r =>
      if r.id ∈ S.map (·.id) ∧ unclaimedRow r then claimRow r else r) =
      T.map (fun r => if r ∈ S then claimRow r else r) := by
    apply List.map_congr_left
    intro r hr
    by_cases h : r ∈ S
    · rw [if_pos ⟨(hIds r hr).mpr h, hSun r h⟩, if_pos h]
    · rw [if_neg, if_neg h]
      rintro ⟨h1, _⟩
      exact h ((hIds r hr).mp h1)
  have hres1 : (T.map (fun r => if r ∈ S then claimRow r else r)).filter
      (fun r => decide (r.id ∈ S.map (·.id) ∧ r.processed = some 3)) =
      S.map claimRow := by
    rw [filter_map_comm _ _ _ (fun r => decide (r ∈ S))]
    · rw [filter_mem_of_sublist hSsub (nodup_of_sorted hs)]
      apply List.map_congr_left
      intro r hr
      rw [if_pos hr]
    · intro r hr
      by_cases h : r ∈ S
      · have h3 : r.id ∈ S.map (·.id) := (hIds r hr).mpr h
        simp [claimRow, h, h3]
      · have h3 : r.id ∉ S.map (·.id) := fun hc => h ((hIds r hr).mp hc)
        simp [claimRow, h, h3]
  have hmain : get_unprocessed_external_sites T limit =
      (S.map claimRow, T.map (fun r => if r ∈ S then claimRow r else r)) := by
    simp only [get_unprocessed_external_sites, hsort, ← hS]
    rw [htab, hres1]
  refine ⟨?_, ?_, ?_, ?_⟩
  · rw [hmain]
  · rw [hmain]
    simp only [List.length_map, hS, List.length_take]
    exact min_le_left _ _
  · rw [hmain]
    intro r hr
    rcases List.mem_map.mp hr with ⟨s, _, rfl⟩
    rfl
  · rw [hmain]

/-- C1 witness: the batch pull at limit 2 on a concrete five-row table
(rows 1 and 5 unclaimed via `processed = 0`, row 3 via `NULL`) returns
rows 1 and 3 claimed. -/
theorem claim_C1_witness :
    (get_unprocessed_external_sites
      [⟨1, "u1", "d1", 0, "p", .homepage, some 0⟩,
       ⟨2, "u2", "d2", 0, "p", .homepage, some 1⟩,
       ⟨3, "u3", "d3", 0, "p", .homepage, none⟩,
       ⟨4, "u4", "d4", 0, "p", .homepage, some 3⟩,
       ⟨5, "u5", "d5", 0, "p", .homepage, some 0⟩] 2).1
    = [⟨1, "u1", "d1", 0, "p", .homepage, some 3⟩,
       ⟨3, "u3", "d3", 0, "p", .homepage, some 3⟩] :=
  ((claim_C1
      [⟨1, "u1", "d1", 0, "p", .homepage, some 0⟩,
       ⟨2, "u2", "d2", 0, "p", .homepage, some 1⟩,
       ⟨3, "u3", "d3", 0, "p", .homepage, none⟩,
       ⟨4, "u4", "d4", 0, "p", .homepage, some 3⟩,
       ⟨5, "u5", "d5", 0, "p", .homepage, some 0⟩] 2
      (by decide)).1).trans (by decide)

/-- C2: on the complete directed graph over `{1, 2, 3}` with the sampled
source ids `[1, 2]`, the code reports the reachable-pair ratio
`4 / (2·(2−1)) = 2` — a value above 1, because line 136 divides by
`len(sampled_ids) − 1` — while the specified formula
`reachable / (sample_size · (total_nodes − 1))` gives 1. -/
theorem claim_C2 :
    (calculate_all_pairs_shortest_paths
      [(1,2),(1,3),(2,1),(2,3),(3,1),(3,2)] [1,2]).2 = 2 ∧
    1 < (calculate_all_pairs_shortest_paths
      [(1,2),(1,3),(2,1),(2,3),(3,1),(3,2)] [1,2]).2 ∧
    specSampledReachableFraction 4 2 3 = 1 := by
  refine ⟨?_, ?_, ?_⟩ <;>
    norm_num [calculate_all_pairs_shortest_paths, bfs_shortest_paths,
      bfsDistAux, keyMem, directed_adj, List.flatMap,
      specSampledReachableFraction]
/-- C3 (amended): transitivity, modularity and assortativity do report
0-valued results on an empty graph, assortativity reports 0 whenever all
degrees are equal (zero variance), and on any non-empty graph the global
clustering averages are defined; but the empty graph itself is NOT safe
for `calculate_global_clustering_coefficient` (see the counterexample). -/
theorem claim_C3 :
    calculate_transitivity [] = ⟨0, 0, 0⟩ ∧
    calculate_modularity [] = ⟨0, 0⟩ ∧
    calculate_degree_assortativity [] = SqrtRat.ofRat 0 ∧
    (∀ es : List (Nat × Nat),
      (∀ u ∈ graphKeys es, ∀ v ∈ graphKeys es,
        (undirected_adj es u).length = (undirected_adj es v).length) →
      calculate_degree_assortativity es = SqrtRat.ofRat 0) ∧
    (∀ es : List (Nat × Nat), graphKeys es ≠ [] →
      (calculate_global_clustering_coefficient es).average ≠ NpMeanRes.nan ∧
      (calculate_global_clustering_coefficient es).weighted ≠
        NpAvgRes.zeroDivErr) := by
  refine ⟨?_, ?_, ?_, fun es h => assort_zero_of_const_degree es h,
    fun es h => clustering_defined es h⟩
  · norm_num [calculate_transitivity, graphKeys]
  · norm_num [calculate_modularity, find_connected_components, graphKeys]
  · norm_num [calculate_degree_assortativity, graphKeys]

/-- C3 counterexample: on the empty graph the unweighted mean is
`np.mean([])`, i.e. NaN, and the degree-weighted mean raises
`ZeroDivisionError` (`np.average` with weights summing to 0) — not the
0-valued results the claim asserts for every metric on every empty
input. -/
theorem claim_C3_cex :
    calculate_global_clustering_coefficient [] =
      ⟨NpMeanRes.nan, NpAvgRes.zeroDivErr, [], []⟩ := by
  decide

/-- C3 witness: the zero-variance 4-cycle reports assortativity 0 and the
one-edge graph has both clustering averages defined. -/
theorem claim_C3_witness :
    calculate_degree_assortativity [(0,1),(1,2),(2,3),(3,0)] =
      SqrtRat.ofRat 0 ∧
    ((calculate_global_clustering_coefficient [(0,1)]).average ≠
        NpMeanRes.nan ∧
      (calculate_global_clustering_coefficient [(0,1)]).weighted ≠
        NpAvgRes.zeroDivErr) :=
  ⟨claim_C3.2.2.2.1 [(0,1),(1,2),(2,3),(3,0)] (by decide),
   claim_C3.2.2.2.2 [(0,1)] (by decide)⟩

/-- C4: committing the same friend-link batch twice leaves the table as
after one commit: the `ON DUPLICATE KEY UPDATE id = id` insert under the
unique key `(from_site_id, to_site_id, page_url(100))` is
insert-or-ignore, so the batch writer is idempotent. -/
theorem claim_C4 (t b : List FLRow) :
    batch_save_friend_links (batch_save_friend_links t b) b =
      batch_save_friend_links t b :=
  batch_save_noop (fun _ hr => batch_save_key_mem hr)
/-- C5 (amended): the two crawler-side guards do hold — every link that
`extract_links` returns parses to a bare domain different from the page's
own, and the analytics edge loader's `WHERE from_site_id != to_site_id`
filter keeps no self-loop — but the promotion path can still commit a
self-loop row (see the counterexample). -/
theorem claim_C5 :
    (∀ (joiner : String → String → String) (unquote : String → String)
      (hrefs : List String) (base_url : String) (pb pl : UrlParts) (l : String),
      parseUrl base_url.data = .ok pb →
      l ∈ extract_links joiner unquote hrefs base_url →
      parseUrl l.data = .ok pl →
      replaceWwwKey pl.netloc ≠ replaceWwwKey pb.netloc) ∧
    (∀ rows : List FLRow, ∀ e ∈ load_graph_edges rows, e.1 ≠ e.2) := by
  constructor
  · intro joiner unquote hrefs base_url pb pl l hpb hl hpl
    simp only [extract_links, hpb] at hl
    rcases haux : extractLinksAux joiner unquote base_url
        (replaceWwwKey pb.netloc) [] hrefs with links | _ <;>
      simp only [haux] at hl
    · have hP : LinksOffDomain (replaceWwwKey pb.netloc) links :=
        extractLinksAux_off_domain (by intro x hx; simp at hx) haux
      exact hP l hl pl hpl
    · exact absurd hl (List.not_mem_nil l)
  · exact load_graph_edges_no_self
/-- C5 counterexample: `process_external_site` promoting external row 1
(URL `https://t.co/x`, discovered from site 7 whose URL it resolves back
to) reuses site 7 as the new site id and commits the friend-link row
`(7, 7)` — a self-loop — because the promotion path has no
`from_site ≠ to_site` guard. -/
theorem claim_C5_cex :
    (process_external_site [⟨7, "https://a.com"⟩] []
      [⟨1, "https://t.co/x", "t.co", 7, "https://a.com", .homepage, some 0⟩]
      ⟨1, "https://t.co/x", "t.co", 7, "https://a.com", .homepage, some 0⟩
      (some "https://a.com") true).2.1
    = [⟨7, 7, .homepage, "https://a.com"⟩] := by
  decide

/-- C5 witness: a page on `base.com` linking to `https://other.com/x`
yields a link whose bare domain differs from the page's, and the loader
emits the non-loop edge `(2, 3)` whose endpoints differ. -/
theorem claim_C5_witness :
    replaceWwwKey "other.com".data ≠ replaceWwwKey "base.com".data ∧
    ((2 : Nat), (3 : Nat)).1 ≠ ((2 : Nat), (3 : Nat)).2 :=
  ⟨claim_C5.1 (fun _ h => h) id ["https://other.com/x"] "https://base.com"
      ⟨"https".data, "base.com".data, [], [], [], []⟩
      ⟨"https".data, "other.com".data, "/x".data, [], [], []⟩
      "https://other.com/x" (by decide) (by decide) (by decide),
   claim_C5.2 [⟨2, 3, .homepage, "p"⟩] (2, 3) (by decide)⟩
/-- C6 (amended): `normalize_url` returns `None` whenever the stripped
input does not start with `http://` or `https://` (covering empty,
whitespace-only, relative and non-HTTP(S) inputs); every returned URL is
fragment-free; and on clean absolute URLs (no fragment, query, params,
brackets or control bytes, non-empty host) the result is exactly the
input stripped of surrounding whitespace and trailing slashes — but
trailing-slash removal happens before fragment removal, and a mismatched
IPv6 bracket raises (see the counterexample). -/
theorem claim_C6 :
    (∀ s : String,
      ¬("http://".data.isPrefixOf (pyStrip s.data) = true ∨
        "https://".data.isPrefixOf (pyStrip s.data) = true) →
      normalize_url s = .ok none) ∧
    (∀ s r : String, normalize_url s = .ok (some r) → '#' ∉ r.data) ∧
    (∀ (s : String) (sch v0 : List Char),
      sch = "http".data ∨ sch = "https".data →
      pyStrip s.data = sch ++ ':' :: '/' :: '/' :: v0 →
      v0 ≠ [] → v0.headD ' ' ≠ '/' →
      (∀ c ∈ v0, ¬(c = '\t' ∨ c = '\x0d' ∨ c = '\n' ∨ c = '[' ∨ c = ']' ∨
        c = '#' ∨ c = '?' ∨ c = ';')) →
      normalize_url s = .ok (some ⟨rstripSlashes (pyStrip s.data)⟩)) :=
  ⟨fun _ h => normalize_null h,
   fun _ _ h => normalize_no_hash h,
   fun _ _ _ h1 h2 h3 h4 h5 => normalize_clean h1 h2 h3 h4 h5⟩

/-- C6 counterexample: `normalize_url` keeps the trailing slash of
`https://example.com/a/#f` (the `rstrip('/')` runs before the fragment is
cut, so the spec's "trailing slash removed" fails), and it raises the
uncaught `ValueError` of `urlparse` on `http://[a` instead of returning
`None` ("never throws" fails). -/
theorem claim_C6_cex :
    normalize_url "https://example.com/a/#f" =
      .ok (some "https://example.com/a/") ∧
    normalize_url "http://[a" = .exc ∧
    ("https://example.com/a/" : String).data.getLast? = some '/' := by
  refine ⟨by decide, by decide, by decide⟩

/-- C6 witness: the three amended conjuncts at concrete inputs — a
non-HTTP(S) URL maps to `None`, a fragment-carrying input normalises to a
`#`-free URL, and a clean URL with surrounding whitespace is returned
stripped unchanged. -/
theorem claim_C6_witness :
    normalize_url "ftp://x.com" = .ok none ∧
    '#' ∉ ("https://Example.com/A?q=1" : String).data ∧
    normalize_url " https://example.com/x " =
      .ok (some ⟨rstripSlashes (pyStrip " https://example.com/x ".data)⟩) :=
  ⟨claim_C6.1 "ftp://x.com" (by decide),
   claim_C6.2.1 " https://Example.com/A?q=1#frag " "https://Example.com/A?q=1"
     (by decide),
   claim_C6.2.2 " https://example.com/x " "https".data "example.com/x".data
     (Or.inr rfl) (by decide) (by decide) (by decide) (by decide)⟩
/-- C7 (amended): `get_site_by_url` returns `None` on null or empty
input, an exact canonical-URL hit always wins, and on an exact miss the
result is the scheme+bare-domain fallback lookup — but the fallback key
lowercases the host and removes EVERY occurrence of `"www."`
(`str.replace`), not only a leading one, so `blog.www.example.com`
resolves to the site registered as `blog.example.com`. -/
theorem claim_C7 :
    (∀ um bm : List (String × Nat),
      get_site_by_url none um bm = none ∧
      get_site_by_url (some "") um bm = none) ∧
    (∀ (u : String) (um bm : List (String × Nat)) (sid : Nat), u ≠ "" →
      lookupBy um u = some sid → get_site_by_url (some u) um bm = some sid) ∧
    (∀ (u : String) (um bm : List (String × Nat)), u ≠ "" →
      lookupBy um u = none →
      get_site_by_url (some u) um bm =
        (match baseKeyOf u with
         | .exc => none
         | .ok bk => lookupBy bm bk)) ∧
    get_site_by_url (some "https://blog.www.example.com/x")
      (build_site_url_map [⟨1, "https://blog.example.com"⟩]).1
      (build_site_url_map [⟨1, "https://blog.example.com"⟩]).2 = some 1 := by
  refine ⟨fun um bm => ⟨rfl, by simp [get_site_by_url]⟩,
    fun u um bm sid h hlk => by simp [get_site_by_url, h, hlk],
    fun u um bm h hlk => by simp [get_site_by_url, h, hlk],
    by decide⟩

/-- C7 counterexample: the code's fallback key for
`https://blog.www.example.com/x` is `https://blog.example.com` — the
inner `www.` is removed too — whereas the spec's leading-only stripping
leaves `https://blog.www.example.com`; the two keys differ, so the
claim's "a leading "www." (and nothing else) is stripped" is false of
the code. -/
theorem claim_C7_cex :
    baseKeyOf "https://blog.www.example.com/x" =
      .ok "https://blog.example.com" ∧
    specLeadingWwwBaseKey "https://blog.www.example.com/x" =
      .ok "https://blog.www.example.com" ∧
    baseKeyOf "https://blog.www.example.com/x" ≠
      specLeadingWwwBaseKey "https://blog.www.example.com/x" := by
  refine ⟨by decide, by decide, by decide⟩

/-- C7 witness: an exact hit wins (`https://x.com` → 5) and an exact miss
falls back to the bare-domain map (`https://www.x.com` → 9 through the
key `https://x.com`). -/
theorem claim_C7_witness :
    get_site_by_url (some "https://x.com") [("https://x.com", 5)] [] =
      some 5 ∧
    get_site_by_url (some "https://www.x.com") []
      [("https://x.com", 9)] = some 9 :=
  ⟨claim_C7.2.1 "https://x.com" [("https://x.com", 5)] [] 5
      (by decide) (by decide),
   (claim_C7.2.2.1 "https://www.x.com" [] [("https://x.com", 9)]
      (by decide) (by decide)).trans (by decide)⟩
/-- C8: per site the orchestrator touches at most the first 5 candidate
friend-link pages, fetches exactly the prefix of candidates up to and
including the first page yielding more than 3 distinct links (stopping
there), and every staged friend-link and external row from those pages is
tagged `friend_page` with the crawled site as source. -/
theorem claim_C8 (fetchEx : String → Option (String × List String))
    (siteId : Nat) (um bm : List (String × Nat)) (urls : List String) :
    (crawl_friend_pages fetchEx siteId um bm urls).fetched.length ≤ 5
    ∧ (crawl_friend_pages fetchEx siteId um bm urls).fetched =
        takeThrough (acceptsPage fetchEx) (urls.take 5)
    ∧ (∀ e ∈ (crawl_friend_pages fetchEx siteId um bm urls).friendRows,
        e.linkType = LinkType.friend_page ∧ e.fromSite = siteId)
    ∧ (∀ e ∈ (crawl_friend_pages fetchEx siteId um bm urls).extRows,
        e.linkType = LinkType.friend_page ∧ e.discFrom = siteId)
    ∧ (∀ u ∈ (crawl_friend_pages fetchEx siteId um bm urls).fetched,
        ∀ fu ls, fetchEx u = some (fu, ls) →
        ∀ l ∈ ls, ∀ tid, get_site_by_url (some l) um bm = some tid →
        (⟨siteId, tid, LinkType.friend_page, fu⟩ : FLRow) ∈
          (crawl_friend_pages fetchEx siteId um bm urls).friendRows) := by
  refine ⟨?_, ?_, ?_, ?_, ?_⟩
  · rw [crawl_friend_pages, friendPageLoop_fetched]
    calc (takeThrough (acceptsPage fetchEx) (urls.take 5)).length
        ≤ (urls.take 5).length := takeThrough_length_le _ _
      _ ≤ 5 := by simp
  · rw [crawl_friend_pages, friendPageLoop_fetched]
  · exact friendPageLoop_friend_tags fetchEx siteId um bm (urls.take 5)
  · exact friendPageLoop_ext_tags fetchEx siteId um bm (urls.take 5)
  · exact friendPageLoop_complete fetchEx siteId um bm (urls.take 5)

/-- C8 witness: with no page ever accepted, the orchestrator still probes
at most 5 of the 7 candidates. -/
theorem claim_C8_witness :
    (crawl_friend_pages (fun _ => none) 1 [] []
      ["a", "b", "c", "d", "e", "f", "g"]).fetched.length ≤ 5 :=
  (claim_C8 (fun _ => none) 1 [] [] ["a", "b", "c", "d", "e", "f", "g"]).1

/-- C9: on the triangle-plus-pendant graph A–B, B–C, C–A, A–D the
transitivity computation reports 1 triangle, 5 connected triplets and
transitivity `3·1/5 = 0.6`. -/
theorem claim_C9 :
    calculate_transitivity [(0,1),(1,2),(2,0),(0,3)] = ⟨3/5, 1, 5⟩ := by
  norm_num [calculate_transitivity, graphKeys, pushNew, undirected_adj,
    countAdjPairs, List.flatMap]

/-- C10: a mutual pair of directed edges (a, b) and (b, a) makes each
endpoint appear twice in the other's adjacency list; local clustering
deduplicates neighbours before counting (coefficient 0 here), while the
global-clustering degrees, the transitivity triplet count, the
assortativity samples and the modularity computation all use the raw
list length 2 per endpoint: adding the single edge (c, d) yields the raw
degree sequence [2, 2, 1, 1] and modularity `2/3 − (4/6)² + 1/3 − (2/6)²
= 4/9` over total raw degree 6, where deduplicated degrees [1, 1, 1, 1]
would give `1/2 − (2/4)² + 1/2 − (2/4)² = 1/2`. -/
theorem claim_C10 (a b c d : Nat) (hab : a ≠ b) (hcd : c ≠ d)
    (hac : a ≠ c) (had : a ≠ d) (hbc : b ≠ c) (hbd : b ≠ d) :
    undirected_adj [(a,b),(b,a)] a = [b, b]
    ∧ undirected_adj [(a,b),(b,a)] b = [a, a]
    ∧ dedupKeepFirst (undirected_adj [(a,b),(b,a)] a) = [b]
    ∧ calculate_local_clustering_coefficient [(a,b),(b,a)] a = 0
    ∧ (calculate_global_clustering_coefficient [(a,b),(b,a)]).degrees = [2, 2]
    ∧ (calculate_transitivity [(a,b),(b,a)]).triplets = 2
    ∧ source_degrees [(a,b),(b,a)] = [2, 2, 2, 2]
    ∧ (graphKeys [(a,b),(b,a),(c,d)]).map
        (fun v => (undirected_adj [(a,b),(b,a),(c,d)] v).length) = [2, 2, 1, 1]
    ∧ calculate_modularity [(a,b),(b,a),(c,d)] = ⟨4/9, 2⟩ := by
  have hba : b ≠ a := hab.symm
  have hdc : d ≠ c := hcd.symm
  have hca : c ≠ a := hac.symm
  have hda : d ≠ a := had.symm
  have hcb : c ≠ b := hbc.symm
  have hdb : d ≠ b := hbd.symm
  have hadja : undirected_adj [(a,b),(b,a)] a = [b, b] := by
    simp [undirected_adj, List.flatMap, hba]
  have hadjb : undirected_adj [(a,b),(b,a)] b = [a, a] := by
    simp [undirected_adj, List.flatMap, hab]
  have hkeys : graphKeys [(a,b),(b,a)] = [a, b] := by
    simp [graphKeys, pushNew, hab, hba]
  have hadja3 : undirected_adj [(a,b),(b,a),(c,d)] a = [b, b] := by
    simp [undirected_adj, List.flatMap, hba, hca, hda]
  have hadjb3 : undirected_adj [(a,b),(b,a),(c,d)] b = [a, a] := by
    simp [undirected_adj, List.flatMap, hab, hcb, hdb]
  have hadjc3 : undirected_adj [(a,b),(b,a),(c,d)] c = [d] := by
    simp [undirected_adj, List.flatMap, hac, hbc, hdc]
  have hadjd3 : undirected_adj [(a,b),(b,a),(c,d)] d = [c] := by
    simp [undirected_adj, List.flatMap, had, hbd, hcd]
  have hkeys3 : graphKeys [(a,b),(b,a),(c,d)] = [a, b, c, d] := by
    simp [graphKeys, pushNew, hab, hba, hca, hda, hcb, hdb, hac, had, hbc,
      hbd, hcd, hdc]
  have hcomp3 : find_connected_components [(a,b),(b,a),(c,d)] = [[a, b], [c, d]] := by
    simp [find_connected_components, hkeys3, bfs_component, bfsComponentAux,
      pushNew, hadja3, hadjb3, hadjc3, hadjd3, hab, hba, hca, hda, hcb, hdb,
      hac, had, hbc, hbd, hcd, hdc]
  refine ⟨hadja, hadjb, ?_, ?_, ?_, ?_, ?_, ?_, ?_⟩
  · simp [dedupKeepFirst, hadja, pushNew]
  · simp [calculate_local_clustering_coefficient, hadja, dedupKeepFirst, pushNew]
  · simp [calculate_global_clustering_coefficient, hkeys, hadja, hadjb]
  · simp [calculate_transitivity, hkeys, hadja, hadjb]
    norm_num
  · simp [source_degrees, hkeys, hadja, hadjb, List.flatMap]
  · simp [hkeys3, hadja3, hadjb3, hadjc3, hadjd3]
  · norm_num [calculate_modularity, hcomp3, hkeys3, hadja3, hadjb3, hadjc3,
      hadjd3, hab, hba, hca, hda, hcb, hdb, hac, had, hbc, hbd, hcd, hdc]

/-- C10 witness: the mutual pair 0 ↔ 1 realises the double adjacency
entries and raw degree 2 at both endpoints, and with the extra edge
(2, 3) the modularity computation runs on the raw degrees [2, 2, 1, 1],
reporting 4/9 over two communities. -/
theorem claim_C10_witness :
    undirected_adj [(0,1),(1,0)] 0 = [1, 1]
    ∧ undirected_adj [(0,1),(1,0)] 1 = [0, 0]
    ∧ dedupKeepFirst (undirected_adj [(0,1),(1,0)] 0) = [1]
    ∧ calculate_local_clustering_coefficient [(0,1),(1,0)] 0 = 0
    ∧ (calculate_global_clustering_coefficient [(0,1),(1,0)]).degrees = [2, 2]
    ∧ (calculate_transitivity [(0,1),(1,0)]).triplets = 2
    ∧ source_degrees [(0,1),(1,0)] = [2, 2, 2, 2]
    ∧ (graphKeys [(0,1),(1,0),(2,3)]).map
        (fun v => (undirected_adj [(0,1),(1,0),(2,3)] v).length) = [2, 2, 1, 1]
    ∧ calculate_modularity [(0,1),(1,0),(2,3)] = ⟨4/9, 2⟩ :=
  claim_C10 0 1 2 3 (by decide) (by decide) (by decide) (by decide)
    (by decide) (by decide)
